import Mathlib

/-!
ForwardList (include/forward_list.hpp): heap model and verified properties.

The C++ class `ForwardList<T>` keeps a raw pointer `head_` to a chain of
heap-allocated `Node`s and a counter `size_`.  The embedding below makes the
heap explicit:

* an address is a natural number, a pointer is an `Option Nat` (`none` is
  `nullptr`);
* the heap is a list of cells, the address being the index; a cell is `none`
  once the node was deleted;
* `new Node(value)` takes the first address past the end of the heap, so a new
  node never aliases a live one;
* dereferencing `nullptr` or a deleted node is undefined behaviour in C++; the
  model reports it as `Outcome.undefined`;
* `throw ListIsEmptyException` is `Outcome.raised`, carrying the state at the
  throw;
* `size_` is a `size_t`; every increment is paired with a live allocation and
  every decrement is guarded by `IsEmpty()`, so it cannot wrap and is a `Nat`.
-/

namespace FwdList

/-! ## Data model -/

/-- Node of the chain: `Node* next_; T value_;`. -/
structure Node (T : Type) where
  next_ : Option Nat
  value_ : T
deriving DecidableEq, Repr

/-- Constructor `Node(const T& value) : next_(nullptr), value_(value)`. -/
def Node.new {T : Type} (value : T) : Node T := { next_ := none, value_ := value }

/-- Heap of nodes: cell `a` is `some n` while the node at address `a` is live. -/
abbrev Heap (T : Type) := List (Option (Node T))

/-- Dereference of a node pointer; `none` for `nullptr`, a deleted node or an
address that was never allocated. -/
def Heap.load {T : Type} (h : Heap T) : Option Nat → Option (Node T)
  | none => none
  | some a => Option.join h[a]?

/-- Allocation `new Node(value)`: the fresh address and the extended heap. -/
def Heap.alloc {T : Type} (h : Heap T) (value : T) : Nat × Heap T :=
  (h.length, h ++ [some (Node.new value)])

/-- Assignment `p->next_ = nx`; `none` when `p` cannot be dereferenced. -/
def Heap.setNext {T : Type} (h : Heap T) (p : Option Nat) (nx : Option Nat) : Option (Heap T) :=
  match p, h.load p with
  | some a, some n => some (h.set a (some { n with next_ := nx }))
  | _, _ => none

/-- Statement `delete p`: a no-op on `nullptr`, `none` on a node that is not live. -/
def Heap.delete {T : Type} (h : Heap T) (p : Option Nat) : Option (Heap T) :=
  match p with
  | none => some h
  | some a =>
    match h.load (some a) with
    | some _ => some (h.set a none)
    | none => none

/-- Result of running a member function on a state of type `σ`. -/
inductive Outcome (σ α : Type) where
  /-- normal return with the returned value and the state afterwards -/
  | ok (val : α) (st : σ)
  /-- `ListIsEmptyException` thrown, with the state at the throw -/
  | raised (st : σ)
  /-- undefined behaviour: a null or dangling pointer was dereferenced -/
  | undefined
  /-- the step budget of a loop of the model ran out -/
  | timeout
deriving DecidableEq, Repr

/-- Iterator `ForwardListIterator`: the member `Node* current_`. -/
structure ForwardListIterator where
  current_ : Option Nat
deriving DecidableEq, Repr

/-- List object `ForwardList<T>`: the members `Node* head_; size_t size_;`
(the values live in the heap). -/
structure ForwardList where
  head_ : Option Nat
  size_ : Nat
deriving DecidableEq, Repr

/-! ## Iterator operations -/

/-- Default constructor `ForwardListIterator() : current_(nullptr)`. -/
def ForwardListIterator.default : ForwardListIterator := { current_ := none }

/-- Comparison `operator==`: `current_ == other.current_`. -/
def ForwardListIterator.eq (a b : ForwardListIterator) : Bool :=
  a.current_ == b.current_

/-- Comparison `operator!=`: `current_ != other.current_`. -/
def ForwardListIterator.ne (a b : ForwardListIterator) : Bool :=
  a.current_ != b.current_

/-- Dereference `operator*`: `current_->value_`. -/
def ForwardListIterator.deref {T : Type} (it : ForwardListIterator) (h : Heap T) : Option T :=
  (h.load it.current_).map (fun n => n.value_)

/-- Pre-increment `operator++()`: `current_ = current_->next_`. -/
def ForwardListIterator.preInc {T : Type} (it : ForwardListIterator) (h : Heap T) :
    Option ForwardListIterator :=
  (h.load it.current_).map (fun n => { current_ := n.next_ })

/-- Post-increment `operator++(int)`: the returned copy `temp`, then the
advanced iterator. -/
def ForwardListIterator.postInc {T : Type} (it : ForwardListIterator) (h : Heap T) :
    Option (ForwardListIterator × ForwardListIterator) :=
  let temp := it
  (it.preInc h).map (fun it1 => (temp, it1))

/-! ## List operations -/

/-- Default constructor `ForwardList() : head_(nullptr), size_(0)`. -/
def ForwardList.empty : ForwardList := { head_ := none, size_ := 0 }

/-- Member `Begin()`: `ForwardListIterator(head_)`. -/
def ForwardList.Begin (self : ForwardList) : ForwardListIterator := { current_ := self.head_ }

/-- Member `End()`: `ForwardListIterator(nullptr)`. -/
def ForwardList.End (_self : ForwardList) : ForwardListIterator := { current_ := none }

/-- Member `IsEmpty()`: `size_ == 0`. -/
def ForwardList.IsEmpty (self : ForwardList) : Bool := self.size_ == 0

/-- Member `Size()`: `size_`. -/
def ForwardList.Size (self : ForwardList) : Nat := self.size_

/-- Member `Front()`: throws on `IsEmpty()`, else `head_->value_`. -/
def ForwardList.Front {T : Type} (self : ForwardList) (h : Heap T) :
    Outcome (ForwardList × Heap T) T :=
  if self.IsEmpty then .raised (self, h)
  else
    match h.load self.head_ with
    | some n => .ok n.value_ (self, h)
    | none => .undefined

/-- Member `Swap(other)`: exchanges `head_` and `size_`; returns the new
`*this` and the new `other`. -/
def ForwardList.Swap (self other : ForwardList) : ForwardList × ForwardList :=
  let temp_head := self.head_
  let temp_size := self.size_
  let self1 : ForwardList := { head_ := other.head_, size_ := other.size_ }
  let other1 : ForwardList := { head_ := temp_head, size_ := temp_size }
  (self1, other1)

/-- Member `PushFront(value)`. -/
def ForwardList.PushFront {T : Type} (self : ForwardList) (value : T) (h : Heap T) :
    Outcome (ForwardList × Heap T) Unit :=
  -- Node* node = new Node(value);
  let (node, h1) := h.alloc value
  -- node->next_ = head_;
  match h1.setNext (some node) self.head_ with
  | none => .undefined
  | some h2 =>
    -- head_ = node; ++size_;
    .ok () ({ head_ := some node, size_ := self.size_ + 1 }, h2)

/-- Member `PopFront()`. -/
def ForwardList.PopFront {T : Type} (self : ForwardList) (h : Heap T) :
    Outcome (ForwardList × Heap T) Unit :=
  if self.IsEmpty then .raised (self, h)
  else
    -- Node* node = head_;
    let node := self.head_
    -- head_ = head_->next_;
    match h.load self.head_ with
    | none => .undefined
    | some n =>
      -- delete node;
      match h.delete node with
      | none => .undefined
      | some h1 =>
        -- --size_;
        .ok () ({ head_ := n.next_, size_ := self.size_ - 1 }, h1)

/-- Member `EraseAfter(pos)`. -/
def ForwardList.EraseAfter {T : Type} (self : ForwardList) (pos : ForwardListIterator)
    (h : Heap T) : Outcome (ForwardList × Heap T) Unit :=
  if self.IsEmpty then .raised (self, h)
  else
    -- Node* node = pos.current_;
    let node := pos.current_
    match node with
    | none => .ok () (self, h)
    | some a =>
      -- if (node && node->next_)
      match h.load (some a) with
      | none => .undefined
      | some n =>
        match n.next_ with
        | none => .ok () (self, h)
        | some d =>
          -- Node* to_delete = node->next_;  node->next_ = to_delete->next_;
          match h.load (some d) with
          | none => .undefined
          | some dn =>
            match h.setNext (some a) dn.next_ with
            | none => .undefined
            | some h1 =>
              -- delete to_delete;
              match h1.delete (some d) with
              | none => .undefined
              | some h2 =>
                -- --size_;
                .ok () ({ head_ := self.head_, size_ := self.size_ - 1 }, h2)

/-- Member `InsertAfter(pos, value)`. -/
def ForwardList.InsertAfter {T : Type} (self : ForwardList) (pos : ForwardListIterator)
    (value : T) (h : Heap T) : Outcome (ForwardList × Heap T) Unit :=
  -- Node* node = new Node(value);
  let (node, h1) := h.alloc value
  -- Node* cur = pos.current_;
  let cur := pos.current_
  match cur with
  | some c =>
    -- node->next_ = cur->next_;
    match h1.load (some c) with
    | none => .undefined
    | some cn =>
      match h1.setNext (some node) cn.next_ with
      | none => .undefined
      | some h2 =>
        -- cur->next_ = node;
        match h2.setNext (some c) (some node) with
        | none => .undefined
        | some h3 => .ok () ({ head_ := self.head_, size_ := self.size_ + 1 }, h3)
  | none =>
    -- head_ = node;
    .ok () ({ head_ := some node, size_ := self.size_ + 1 }, h1)

/-- Loop of `Find`: `while (node != nullptr) { if (node->value_ == value) return
ForwardListIterator(node); node = node->next_; } return End();` with a step
budget. -/
def ForwardList.FindLoop {T : Type} [DecidableEq T] (self : ForwardList) (value : T)
    (h : Heap T) : Nat → Option Nat → Outcome (ForwardList × Heap T) ForwardListIterator
  | _, none => .ok self.End (self, h)
  | 0, some _ => .timeout
  | fuel + 1, some a =>
    match h.load (some a) with
    | none => .undefined
    | some n =>
      if n.value_ = value then .ok { current_ := some a } (self, h)
      else ForwardList.FindLoop self value h fuel n.next_

/-- Member `Find(value)`, the loop starting at `head_`. -/
def ForwardList.Find {T : Type} [DecidableEq T] (self : ForwardList) (value : T)
    (h : Heap T) (fuel : Nat) : Outcome (ForwardList × Heap T) ForwardListIterator :=
  ForwardList.FindLoop self value h fuel self.head_

/-- Loop of `Clear`: `while (!IsEmpty()) { PopFront(); }` with a step budget. -/
def ForwardList.ClearLoop {T : Type} :
    Nat → ForwardList → Heap T → Outcome (ForwardList × Heap T) Unit
  | 0, self, h => if self.IsEmpty then .ok () (self, h) else .timeout
  | fuel + 1, self, h =>
    if self.IsEmpty then .ok () (self, h)
    else
      match self.PopFront h with
      | .ok _ st => ForwardList.ClearLoop fuel st.1 st.2
      | .raised st => .raised st
      | .undefined => .undefined
      | .timeout => .timeout

/-- Member `Clear()`.  Every `PopFront` that returns lowers `size_` by one, so
`size_` iterations are always enough (theorem `Clear_no_timeout`). -/
def ForwardList.Clear {T : Type} (self : ForwardList) (h : Heap T) :
    Outcome (ForwardList × Heap T) Unit :=
  ForwardList.ClearLoop self.size_ self h

/-- Loop of the constructor from a literal sequence:
`for (auto it = values.end(); it != values.begin();) PushFront(*--it);`
where `it` is the index of the iterator in `values`. -/
def ForwardList.ofValuesLoop {T : Type} (values : List T) :
    Nat → ForwardList → Heap T → Outcome (ForwardList × Heap T) Unit
  | 0, self, h => .ok () (self, h)
  | it + 1, self, h =>
    match values[it]? with
    | none => .undefined
    | some v =>
      match self.PushFront v h with
      | .ok _ st => ForwardList.ofValuesLoop values it st.1 st.2
      | .raised st => .raised st
      | .undefined => .undefined
      | .timeout => .timeout

/-- Constructor `ForwardList(const std::initializer_list<T>& values)`: starts
from the default constructor and runs the loop from `values.end()`. -/
def ForwardList.ofValues {T : Type} (values : List T) (h : Heap T) :
    Outcome (ForwardList × Heap T) Unit :=
  ForwardList.ofValuesLoop values values.length ForwardList.empty h

/-! ## Traversal -/

/-- Traversal `for (it = start; it != End(); ++it)` collecting the address of
each visited node with `*it`; `none` when it dereferences a bad pointer or the
step budget runs out before `End()`. -/
def traverse {T : Type} : Nat → Heap T → ForwardListIterator → Option (List (Nat × T))
  | 0, _, it => if it.ne ForwardListIterator.default then none else some []
  | fuel + 1, h, it =>
    match it.current_ with
    | none => some []
    | some a =>
      match it.deref h, it.preInc h with
      | some v, some it1 => (traverse fuel h it1).map (fun rest => (a, v) :: rest)
      | _, _ => none

/-- Values met by the traversal from `Begin()`. -/
def ForwardList.toList {T : Type} (self : ForwardList) (h : Heap T) (fuel : Nat) :
    Option (List T) :=
  (traverse fuel h self.Begin).map (fun cells => cells.map Prod.snd)

/-! ## Sequences of calls -/

/-- Call of `PushFront` or `PopFront` made by a client. -/
inductive Op (T : Type) where
  | PushFront (value : T)
  | PopFront
deriving DecidableEq, Repr

/-- Whether the call is a `PushFront`. -/
def Op.isPush {T : Type} : Op T → Bool
  | .PushFront _ => true
  | .PopFront => false

/-- State of a client run: the list, the heap, and how many `PushFront` calls
and how many `PopFront` calls returned normally so far. -/
structure Run (T : Type) where
  self : ForwardList
  heap : Heap T
  pushes : Nat
  pops : Nat
deriving DecidableEq, Repr

/-- One call; a raised `ListIsEmptyException` is caught by the client and the
run goes on from the state at the throw.  `none` on undefined behaviour. -/
def Run.step {T : Type} (r : Run T) : Op T → Option (Run T)
  | .PushFront v =>
    match r.self.PushFront v r.heap with
    | .ok _ st => some { self := st.1, heap := st.2, pushes := r.pushes + 1, pops := r.pops }
    | .raised st => some { self := st.1, heap := st.2, pushes := r.pushes, pops := r.pops }
    | _ => none
  | .PopFront =>
    match r.self.PopFront r.heap with
    | .ok _ st => some { self := st.1, heap := st.2, pushes := r.pushes, pops := r.pops + 1 }
    | .raised st => some { self := st.1, heap := st.2, pushes := r.pushes, pops := r.pops }
    | _ => none

/-- Run of a sequence of calls, first call first. -/
def Run.exec {T : Type} : List (Op T) → Run T → Option (Run T)
  | [], r => some r
  | op :: ops, r =>
    match r.step op with
    | some r1 => Run.exec ops r1
    | none => none

/-- Start of a client run: a default-constructed list over the heap `h`. -/
def Run.start {T : Type} (h : Heap T) : Run T :=
  { self := ForwardList.empty, heap := h, pushes := 0, pops := 0 }

/-! ## Constructors, assignment and swap -/

/-- Loop of the sized constructor, `for (size_t i = 0; i < sz; ++i)
PushFront(T());`: the first argument counts the iterations left, `sz - i`, and
`dflt` stands for the default-constructed value `T()`. -/
def ForwardList.sizedLoop {T : Type} (dflt : T) :
    Nat → ForwardList → Heap T → Outcome (ForwardList × Heap T) Unit
  | 0, self, h => .ok () (self, h)
  | n + 1, self, h =>
    match self.PushFront dflt h with
    | .ok _ st => ForwardList.sizedLoop dflt n st.1 st.2
    | .raised st => .raised st
    | .undefined => .undefined
    | .timeout => .timeout

/-- Constructor `explicit ForwardList(size_t sz)`: starts from the default
constructor and pushes `T()` exactly `sz` times. -/
def ForwardList.sized {T : Type} (sz : Nat) (dflt : T) (h : Heap T) :
    Outcome (ForwardList × Heap T) Unit :=
  ForwardList.sizedLoop dflt sz ForwardList.empty h

/-- Loop shared by the copy constructor and `operator=`:
`while (node != nullptr) { new_node = new Node(node->value_); if (prev)
prev->next_ = new_node; else head_ = new_node; prev = new_node;
node = node->next_; }` with a step budget; the last two arguments are `node`
and `prev`. -/
def ForwardList.CopyLoop {T : Type} :
    Nat → ForwardList → Heap T → Option Nat → Option Nat → Outcome (ForwardList × Heap T) Unit
  | _, self, h, none, _ => .ok () (self, h)
  | 0, _, _, some _, _ => .timeout
  | fuel + 1, self, h, some a, prev =>
    -- Node* new_node = new Node(node->value_);
    match h.load (some a) with
    | none => .undefined
    | some n =>
      let (new_node, h1) := h.alloc n.value_
      match prev with
      | some p =>
        -- prev->next_ = new_node;
        match h1.setNext (some p) (some new_node) with
        | none => .undefined
        | some h2 =>
          -- prev = new_node; node = node->next_;
          match h2.load (some a) with
          | none => .undefined
          | some n2 => ForwardList.CopyLoop fuel self h2 n2.next_ (some new_node)
      | none =>
        -- head_ = new_node; prev = new_node; node = node->next_;
        match h1.load (some a) with
        | none => .undefined
        | some n2 =>
          ForwardList.CopyLoop fuel { head_ := some new_node, size_ := self.size_ } h1 n2.next_
            (some new_node)

/-- Copy constructor `ForwardList(const ForwardList& other)`: starts from
the default constructor, runs the loop from `other.head_` with `prev = nullptr`,
then `size_ = other.size_`. -/
def ForwardList.copy {T : Type} (other : ForwardList) (h : Heap T) (fuel : Nat) :
    Outcome (ForwardList × Heap T) Unit :=
  match ForwardList.CopyLoop fuel ForwardList.empty h other.head_ none with
  | .ok _ st => .ok () ({ head_ := st.1.head_, size_ := other.size_ }, st.2)
  | .raised st => .raised st
  | .undefined => .undefined
  | .timeout => .timeout

/-- Argument `const ForwardList& other` of `operator=`: the reference names
either the object `*this` itself or another list object. -/
inductive OtherRef where
  | this
  | distinct (other : ForwardList)
deriving DecidableEq, Repr

/-- Assignment `operator=(const ForwardList& other)`: returns at once when
`this == &other`; otherwise `Clear()`, the copy loop, `size_ = other.size_`. -/
def ForwardList.assign {T : Type} (self : ForwardList) (other : OtherRef) (h : Heap T)
    (fuel : Nat) : Outcome (ForwardList × Heap T) Unit :=
  match other with
  | .this => .ok () (self, h)
  | .distinct o =>
    match self.Clear h with
    | .ok _ st =>
      match ForwardList.CopyLoop fuel st.1 st.2 o.head_ none with
      | .ok _ st2 => .ok () ({ head_ := st2.1.head_, size_ := o.size_ }, st2.2)
      | .raised st2 => .raised st2
      | .undefined => .undefined
      | .timeout => .timeout
    | .raised st => .raised st
    | .undefined => .undefined
    | .timeout => .timeout

/-- Overload `std::swap(ForwardList<T>& a, ForwardList<T>& b)`: `a.Swap(b)`. -/
def swap (a b : ForwardList) : ForwardList × ForwardList := a.Swap b

/-! ## Clients that address positions -/

/-- Position a client passes to `InsertAfter` or `EraseAfter`: `End()`, or
`Begin()` advanced a number of times. -/
inductive Pos where
  | End
  | FromBegin (steps : Nat)
deriving DecidableEq, Repr

/-- Client loop `for (k = 0; k < steps && it != End(); ++k) ++it;`: it never
increments the end iterator. -/
def advance {T : Type} : Nat → Heap T → ForwardListIterator → Option ForwardListIterator
  | 0, _, it => some it
  | n + 1, h, it =>
    if it.ne ForwardListIterator.default then (it.preInc h).bind (advance n h) else some it

/-- Iterator a position stands for on the list `self`. -/
def Pos.iter {T : Type} (self : ForwardList) (h : Heap T) : Pos → Option ForwardListIterator
  | .End => some self.End
  | .FromBegin n => advance n h self.Begin

/-- Mutating call made by a client on one list. -/
inductive Call (T : Type) where
  | PushFront (value : T)
  | PopFront
  | InsertAfter (pos : Pos) (value : T)
  | EraseAfter (pos : Pos)
  | Clear
deriving DecidableEq, Repr

/-- Outcome of a call as the client sees it: a raised `ListIsEmptyException`
is caught and the run goes on from the state at the throw; `none` on undefined
behaviour. -/
def settle {T : Type} : Outcome (ForwardList × Heap T) Unit → Option (ForwardList × Heap T)
  | .ok _ st => some st
  | .raised st => some st
  | .undefined => none
  | .timeout => none

/-- One call of a client on the list `st.1` over the heap `st.2`. -/
def Call.run {T : Type} (st : ForwardList × Heap T) : Call T → Option (ForwardList × Heap T)
  | .PushFront v => settle (st.1.PushFront v st.2)
  | .PopFront => settle (st.1.PopFront st.2)
  | .InsertAfter pos v =>
    match pos.iter st.1 st.2 with
    | some it => settle (st.1.InsertAfter it v st.2)
    | none => none
  | .EraseAfter pos =>
    match pos.iter st.1 st.2 with
    | some it => settle (st.1.EraseAfter it st.2)
    | none => none
  | .Clear => settle (st.1.Clear st.2)

/-- Run of a sequence of calls on one list, first call first. -/
def Call.exec {T : Type} : List (Call T) → ForwardList × Heap T → Option (ForwardList × Heap T)
  | [], st => some st
  | c :: cs, st =>
    match Call.run st c with
    | some st1 => Call.exec cs st1
    | none => none

/-- Whether the call is not an `InsertAfter`. -/
def Call.noInsert {T : Type} : Call T → Bool
  | .InsertAfter _ _ => false
  | _ => true

/-- Segment of the chain: following `next_` links from `p` visits exactly the
nodes `cells` (address and value, in order) and arrives at `q`. -/
def Seg {T : Type} (h : Heap T) : Option Nat → List (Nat × T) → Option Nat → Prop
  | p, [], q => p = q
  | p, c :: rest, q =>
    p = some c.1 ∧ ∃ nx, h.load (some c.1) = some { next_ := nx, value_ := c.2 } ∧ Seg h nx rest q

/-- Invariant of a client run: the chain from `head_` is well formed, `size_`
counts its nodes, and `size_` plus the successful pops equals the pushes. -/
def RunInv {T : Type} (r : Run T) : Prop :=
  ∃ cells, Seg r.heap r.self.head_ cells none ∧ r.self.size_ = cells.length ∧
    r.self.size_ + r.pops = r.pushes

/-- Footprint of calls on a list whose chain in `h` is `cells`: in `h1` the
list `l1` has a chain again, every node outside `cells` that `h` knew is as it
was, every node of the new chain is a node of `cells` or a new one, and the
heap did not shrink. -/
def Owns {T : Type} (h : Heap T) (cells : List (Nat × T)) (l1 : ForwardList) (h1 : Heap T) :
    Prop :=
  ∃ cells1, Seg h1 l1.head_ cells1 none ∧
    (∀ e, e ∉ cells.map Prod.fst → e < h.length → h1.load (some e) = h.load (some e)) ∧
    (∀ c ∈ cells1, c.1 ∈ cells.map Prod.fst ∨ h.length ≤ c.1) ∧
    h.length ≤ h1.length

/-! ## Heap lemmas -/

theorem load_lt {T : Type} {h : Heap T} {a : Nat} {n : Node T}
    (hl : h.load (some a) = some n) : a < h.length := by
  by_contra hc
  have : h[a]? = none := List.getElem?_eq_none (by omega)
  simp [Heap.load, this] at hl

theorem load_append {T : Type} (h t : Heap T) {a : Nat} (ha : a < h.length) :
    Heap.load (h ++ t) (some a) = h.load (some a) := by
  simp [Heap.load, List.getElem?_append_left ha]

theorem load_append_new {T : Type} (h : Heap T) (c : Option (Node T)) :
    Heap.load (h ++ [c]) (some h.length) = c := by
  simp [Heap.load]

theorem load_set_same {T : Type} (h : Heap T) {a : Nat} (c : Option (Node T))
    (ha : a < h.length) : Heap.load (h.set a c) (some a) = c := by
  simp [Heap.load, List.getElem?_set_self ha]

theorem load_set_other {T : Type} (h : Heap T) {a b : Nat} (c : Option (Node T))
    (hab : a ≠ b) : Heap.load (h.set a c) (some b) = h.load (some b) := by
  simp [Heap.load, List.getElem?_set_ne hab]

/-! ## Chain lemmas -/

theorem seg_append {T : Type} (h : Heap T) (xs ys : List (Nat × T)) (p q : Option Nat) :
    Seg h p (xs ++ ys) q ↔ ∃ m, Seg h p xs m ∧ Seg h m ys q := by
  induction xs generalizing p with
  | nil => simp [Seg]
  | cons c rest ih =>
    constructor
    · intro hs
      obtain ⟨hp, nx, hl, hr⟩ := (hs : Seg h p (c :: (rest ++ ys)) q)
      obtain ⟨m, h1, h2⟩ := (ih nx).1 hr
      exact ⟨m, ⟨hp, nx, hl, h1⟩, h2⟩
    · rintro ⟨m, ⟨hp, nx, hl, h1⟩, h2⟩
      exact ⟨hp, nx, hl, (ih nx).2 ⟨m, h1, h2⟩⟩

theorem seg_frame {T : Type} {h h2 : Heap T} {cells : List (Nat × T)} {p q : Option Nat}
    (hs : Seg h p cells q)
    (hf : ∀ c ∈ cells, h2.load (some c.1) = h.load (some c.1)) : Seg h2 p cells q := by
  induction cells generalizing p with
  | nil => simpa [Seg] using hs
  | cons c rest ih =>
    obtain ⟨hp, nx, hl, hr⟩ := hs
    refine ⟨hp, nx, ?_, ih hr (fun d hd => hf d (List.mem_cons_of_mem _ hd))⟩
    rw [hf c (List.mem_cons_self _ _), hl]

theorem seg_lt {T : Type} {h : Heap T} {cells : List (Nat × T)} {p q : Option Nat}
    (hs : Seg h p cells q) : ∀ c ∈ cells, c.1 < h.length := by
  induction cells generalizing p with
  | nil => simp
  | cons c rest ih =>
    obtain ⟨_, nx, hl, hr⟩ := hs
    intro d hd
    rcases List.mem_cons.1 hd with rfl | hd
    · exact load_lt hl
    · exact ih hr d hd

theorem chain_unique {T : Type} {h : Heap T} {xs ys : List (Nat × T)} {p : Option Nat}
    (hx : Seg h p xs none) (hy : Seg h p ys none) : xs = ys := by
  induction xs generalizing p ys with
  | nil =>
    cases ys with
    | nil => rfl
    | cons d ys =>
      have h1 : p = none := hx
      have h2 : p = some d.1 := hy.1
      rw [h1] at h2
      cases h2
  | cons c xs ih =>
    cases ys with
    | nil =>
      have h1 : p = none := hy
      have h2 : p = some c.1 := hx.1
      rw [h1] at h2
      cases h2
    | cons d ys =>
      obtain ⟨hp, nx, hl, hr⟩ := hx
      obtain ⟨hp2, nx2, hl2, hr2⟩ := hy
      have hcd : c.1 = d.1 := by
        rw [hp] at hp2
        exact Option.some.inj hp2
      rw [← hcd, hl] at hl2
      have hn := Option.some.inj hl2
      have h3 : nx = nx2 := congrArg Node.next_ hn
      have h4 : c.2 = d.2 := congrArg Node.value_ hn
      subst h3
      rw [ih hr hr2, Prod.ext hcd h4]

theorem chain_nodup {T : Type} {h : Heap T} {cells : List (Nat × T)} {p : Option Nat}
    (hs : Seg h p cells none) : (cells.map Prod.fst).Nodup := by
  induction cells generalizing p with
  | nil => simp
  | cons c rest ih =>
    have hs0 := hs
    obtain ⟨hp, nx, hl, hr⟩ := hs
    rw [List.map_cons, List.nodup_cons]
    refine ⟨?_, ih hr⟩
    intro hmem
    obtain ⟨d, hd, hdc⟩ := List.mem_map.1 hmem
    obtain ⟨r1, r2, hsplit⟩ := List.append_of_mem hd
    rw [hsplit] at hr
    obtain ⟨m, _, hm⟩ := (seg_append h r1 (d :: r2) nx none).1 hr
    have hmp : m = p := by rw [hm.1, hp, hdc]
    rw [hmp] at hm
    have hEq := chain_unique hs0 hm
    have hlen := congrArg List.length hEq
    rw [hsplit] at hlen
    simp at hlen
    omega

theorem traverse_iff {T : Type} (fuel : Nat) (h : Heap T) (p : Option Nat)
    (cells : List (Nat × T)) :
    traverse fuel h { current_ := p } = some cells ↔ Seg h p cells none ∧ cells.length ≤ fuel := by
  induction fuel generalizing p cells with
  | zero =>
    cases p with
    | none =>
      cases cells <;> simp [traverse, ForwardListIterator.ne, ForwardListIterator.default, Seg]
    | some a =>
      cases cells <;> simp [traverse, ForwardListIterator.ne, ForwardListIterator.default, Seg]
  | succ fuel ih =>
    cases p with
    | none =>
      cases cells <;> simp [traverse, Seg]
    | some a =>
      cases hl : h.load (some a) with
      | none =>
        cases cells <;> simp [traverse, Seg, ForwardListIterator.deref, hl]
        intro hh
        rw [← hh, hl]
        simp
      | some n =>
        cases cells with
        | nil => simp [traverse, Seg, ForwardListIterator.deref, ForwardListIterator.preInc, hl]
        | cons c rest =>
          simp only [traverse, ForwardListIterator.deref, ForwardListIterator.preInc, hl,
            Option.map_some', Option.map_eq_some', List.cons.injEq, Seg, List.length_cons,
            Nat.add_le_add_iff_right, ih]
          constructor
          · rintro ⟨r, ⟨hr, hlen⟩, hc, rfl⟩
            subst hc
            exact ⟨⟨rfl, n.next_, by simpa using hl, hr⟩, hlen⟩
          · rintro ⟨⟨hp, nx, hl2, hr⟩, hlen⟩
            have ha : a = c.1 := Option.some.inj hp
            subst ha
            rw [hl] at hl2
            have hn := Option.some.inj hl2
            subst hn
            exact ⟨rest, ⟨hr, hlen⟩, rfl, rfl⟩

/-! ## PushFront and PopFront on a chain -/

theorem PushFront_eq {T : Type} (l : ForwardList) (v : T) (h : Heap T) :
    l.PushFront v h =
      .ok () ({ head_ := some h.length, size_ := l.size_ + 1 },
        h ++ [some { next_ := l.head_, value_ := v }]) := by
  simp [ForwardList.PushFront, Heap.alloc, Heap.setNext, load_append_new, Node.new]

theorem seg_push {T : Type} {h : Heap T} {p q : Option Nat} {cells : List (Nat × T)}
    (c : Option (Node T)) (hs : Seg h p cells q) : Seg (h ++ [c]) p cells q :=
  seg_frame hs (fun d hd => load_append h [c] (seg_lt hs d hd))

theorem PushFront_seg {T : Type} {h : Heap T} {p : Option Nat} {cells : List (Nat × T)}
    (v : T) (hs : Seg h p cells none) :
    Seg (h ++ [some { next_ := p, value_ := v }]) (some h.length) ((h.length, v) :: cells) none :=
  ⟨rfl, p, load_append_new h _, seg_push _ hs⟩

theorem PopFront_eq {T : Type} {l : ForwardList} {h : Heap T} {a : Nat} {n : Node T}
    (hne : l.IsEmpty = false) (hh : l.head_ = some a) (hl : h.load (some a) = some n) :
    l.PopFront h = .ok () ({ head_ := n.next_, size_ := l.size_ - 1 }, h.set a none) := by
  simp [ForwardList.PopFront, hne, hh, hl, Heap.delete]

theorem PopFront_seg {T : Type} {h : Heap T} {p : Option Nat} {c : Nat × T}
    {rest : List (Nat × T)} (hs : Seg h p (c :: rest) none) :
    ∃ nx, h.load (some c.1) = some { next_ := nx, value_ := c.2 } ∧
      Seg (h.set c.1 none) nx rest none := by
  have hnd := chain_nodup hs
  obtain ⟨_, nx, hl, hr⟩ := hs
  refine ⟨nx, hl, seg_frame hr ?_⟩
  intro d hd
  apply load_set_other
  intro hcd
  rw [List.map_cons, List.nodup_cons] at hnd
  exact hnd.1 (hcd ▸ List.mem_map_of_mem Prod.fst hd)

/-! ## InsertAfter and EraseAfter on a chain -/

theorem split_at {α : Type} {cells : List α} {i : Nat} {c : α} (hc : cells[i]? = some c) :
    cells = cells.take i ++ c :: cells.drop (i + 1) := by
  induction cells generalizing i with
  | nil => simp at hc
  | cons d rest ih =>
    cases i with
    | zero =>
      simp at hc
      simp [hc]
    | succ i =>
      simp at hc
      simp
      exact ih hc

theorem InsertAfter_eq {T : Type} (l : ForwardList) (v : T) {h : Heap T} {a : Nat} {n : Node T}
    (hl : h.load (some a) = some n) :
    l.InsertAfter { current_ := some a } v h =
      .ok () ({ head_ := l.head_, size_ := l.size_ + 1 },
        (h ++ [some (Node.mk n.next_ v)]).set a (some (Node.mk (some h.length) n.value_))) := by
  have ha : a < h.length := load_lt hl
  have hne : h.length ≠ a := by omega
  have h1 : Heap.load (h ++ [some (Node.mk none v)]) (some a) = some n := by
    rw [load_append h _ ha, hl]
  have h2 : Heap.load (h ++ [some (Node.mk n.next_ v)]) (some a) = some n := by
    rw [load_append h _ ha, hl]
  simp [ForwardList.InsertAfter, Heap.alloc, Heap.setNext, h1, h2, load_append_new, Node.new]

theorem load_insert_frame {T : Type} (h : Heap T) (c c2 : Option (Node T)) {a d : Nat}
    (hda : d ≠ a) (hd : d < h.length) :
    Heap.load ((h ++ [c]).set a c2) (some d) = h.load (some d) := by
  rw [load_set_other _ _ (Ne.symm hda), load_append h _ hd]

theorem InsertAfter_seg {T : Type} {h : Heap T} {p : Option Nat} {pre post : List (Nat × T)}
    {a : Nat} {x : T} (v : T) (hs : Seg h p (pre ++ (a, x) :: post) none) :
    ∃ nx, h.load (some a) = some { next_ := nx, value_ := x } ∧
      Seg ((h ++ [some (Node.mk nx v)]).set a (some (Node.mk (some h.length) x))) p
        (pre ++ (a, x) :: (h.length, v) :: post) none := by
  have hnd := chain_nodup hs
  have hlt := seg_lt hs
  obtain ⟨m, hpre, hm⟩ := (seg_append h pre ((a, x) :: post) p none).1 hs
  obtain ⟨hma, nx, hl, hpost⟩ := hm
  have ha : a < h.length := load_lt hl
  rw [List.map_append, List.map_cons, List.nodup_append] at hnd
  obtain ⟨_, hnd2, hdisj⟩ := hnd
  rw [List.nodup_cons] at hnd2
  refine ⟨nx, hl, ?_⟩
  rw [seg_append]
  refine ⟨m, seg_frame hpre ?_, hma, some h.length, ?_, rfl, nx, ?_, seg_frame hpost ?_⟩
  · intro d hd
    apply load_insert_frame
    · intro hda
      subst hda
      exact hdisj (List.mem_map_of_mem Prod.fst hd) (List.mem_cons_self _ _)
    · exact hlt d (List.mem_append_left _ hd)
  · exact load_set_same _ _ (by simp; omega)
  · show Heap.load _ (some h.length) = _
    rw [load_set_other _ _ (by omega : a ≠ h.length), load_append_new]
  · intro d hd
    have hd1 : d.1 ∈ post.map Prod.fst := List.mem_map_of_mem Prod.fst hd
    apply load_insert_frame
    · intro hda
      subst hda
      exact hnd2.1 hd1
    · exact hlt d (List.mem_append_right _ (List.mem_cons_of_mem _ hd))

theorem EraseAfter_eq {T : Type} {l : ForwardList} {h : Heap T} {a d : Nat} {n dn : Node T}
    (hne : l.IsEmpty = false) (hl : h.load (some a) = some n) (hn : n.next_ = some d)
    (hd : h.load (some d) = some dn) (had : a ≠ d) :
    l.EraseAfter { current_ := some a } h =
      .ok () ({ head_ := l.head_, size_ := l.size_ - 1 },
        (h.set a (some (Node.mk dn.next_ n.value_))).set d none) := by
  have h1 : Heap.load (h.set a (some (Node.mk dn.next_ n.value_))) (some d)
      = some dn := by
    rw [load_set_other _ _ had, hd]
  simp [ForwardList.EraseAfter, hne, hl, hn, hd, Heap.setNext, Heap.delete, h1]

theorem EraseAfter_last {T : Type} {l : ForwardList} {h : Heap T} {a : Nat} {n : Node T}
    (hne : l.IsEmpty = false) (hl : h.load (some a) = some n) (hn : n.next_ = none) :
    l.EraseAfter { current_ := some a } h = .ok () (l, h) := by
  simp [ForwardList.EraseAfter, hne, hl, hn]

theorem EraseAfter_seg {T : Type} {h : Heap T} {p : Option Nat} {pre post : List (Nat × T)}
    {a d : Nat} {x y : T} (hs : Seg h p (pre ++ (a, x) :: (d, y) :: post) none) :
    ∃ nx, h.load (some a) = some { next_ := some d, value_ := x } ∧
      h.load (some d) = some { next_ := nx, value_ := y } ∧ a ≠ d ∧
      Seg ((h.set a (some (Node.mk nx x))).set d none) p
        (pre ++ (a, x) :: post) none := by
  have hnd := chain_nodup hs
  obtain ⟨m, hpre, hm⟩ := (seg_append h pre ((a, x) :: (d, y) :: post) p none).1 hs
  obtain ⟨hma, nx1, hl, hd1, nx, hld, hpost⟩ := hm
  have hnx1 : nx1 = some d := hd1
  subst hnx1
  have ha : a < h.length := load_lt hl
  rw [List.map_append, List.map_cons, List.map_cons, List.nodup_append] at hnd
  obtain ⟨_, hnd2, hdisj⟩ := hnd
  rw [List.nodup_cons, List.nodup_cons] at hnd2
  obtain ⟨ha2, hd2, _⟩ := hnd2
  have had : a ≠ d := by
    intro e
    subst e
    exact ha2 (List.mem_cons_self _ _)
  refine ⟨nx, hl, hld, had, ?_⟩
  rw [seg_append]
  refine ⟨m, seg_frame hpre ?_, hma, nx, ?_, seg_frame hpost ?_⟩
  · intro c hc
    have hc1 : c.1 ∈ pre.map Prod.fst := List.mem_map_of_mem Prod.fst hc
    rw [load_set_other, load_set_other]
    · intro e
      subst e
      exact hdisj hc1 (List.mem_cons_self _ _)
    · intro e
      subst e
      exact hdisj hc1 (List.mem_cons_of_mem _ (List.mem_cons_self _ _))
  · show Heap.load _ (some a) = _
    rw [load_set_other _ _ (Ne.symm had), load_set_same _ _ ha]
  · intro c hc
    have hc1 : c.1 ∈ post.map Prod.fst := List.mem_map_of_mem Prod.fst hc
    rw [load_set_other, load_set_other]
    · intro e
      subst e
      exact ha2 (List.mem_cons_of_mem _ hc1)
    · intro e
      subst e
      exact hd2 hc1

/-! ## Clear -/

theorem PopFront_cases {T : Type} (l : ForwardList) (h : Heap T) (hne : l.IsEmpty = false) :
    l.PopFront h = .undefined ∨
      ∃ hd h1, l.PopFront h = .ok () ({ head_ := hd, size_ := l.size_ - 1 }, h1) := by
  unfold ForwardList.PopFront
  rw [hne]
  cases hl : h.load l.head_ with
  | none => left; simp
  | some n =>
    cases hd : h.delete l.head_ with
    | none => left; simp [hd]
    | some h1 => right; exact ⟨n.next_, h1, by simp [hd]⟩

theorem ClearLoop_no_raise {T : Type} (fuel : Nat) (l : ForwardList) (h : Heap T)
    (st : ForwardList × Heap T) : ForwardList.ClearLoop fuel l h ≠ .raised st := by
  induction fuel generalizing l h with
  | zero =>
    unfold ForwardList.ClearLoop
    split <;> simp
  | succ fuel ih =>
    unfold ForwardList.ClearLoop
    cases he : l.IsEmpty with
    | true => simp
    | false =>
      rcases PopFront_cases l h he with hp | ⟨hd, h1, hp⟩
      · simp [hp]
      · simp only [hp, Bool.false_eq_true, if_false]
        exact ih _ _

theorem ClearLoop_no_timeout {T : Type} (fuel : Nat) (l : ForwardList) (h : Heap T)
    (hf : l.size_ ≤ fuel) : ForwardList.ClearLoop fuel l h ≠ .timeout := by
  induction fuel generalizing l h with
  | zero =>
    have : l.IsEmpty = true := by simp [ForwardList.IsEmpty]; omega
    simp [ForwardList.ClearLoop, this]
  | succ fuel ih =>
    unfold ForwardList.ClearLoop
    cases he : l.IsEmpty with
    | true => simp
    | false =>
      rcases PopFront_cases l h he with hp | ⟨hd, h1, hp⟩
      · simp [hp]
      · simp only [hp, Bool.false_eq_true, if_false]
        apply ih
        show l.size_ - 1 ≤ fuel
        omega

/-- The loop of `Clear` always ends by its own test `IsEmpty()`, never by the
step budget of the model. -/
theorem Clear_no_timeout {T : Type} (l : ForwardList) (h : Heap T) : l.Clear h ≠ .timeout :=
  ClearLoop_no_timeout l.size_ l h (Nat.le_refl _)

theorem ClearLoop_of_chain {T : Type} (cells : List (Nat × T)) (fuel : Nat) (l : ForwardList)
    (h : Heap T) (hs : Seg h l.head_ cells none) (hsz : l.size_ = cells.length)
    (hf : l.size_ ≤ fuel) :
    ∃ h1, ForwardList.ClearLoop fuel l h = .ok () (ForwardList.empty, h1) := by
  induction cells generalizing fuel l h with
  | nil =>
    have hh : l.head_ = none := hs
    have hl : l = ForwardList.empty := by
      cases l
      simp only [ForwardList.empty, ForwardList.mk.injEq]
      exact ⟨hh, hsz⟩
    subst hl
    exact ⟨h, by cases fuel <;> simp [ForwardList.ClearLoop, ForwardList.IsEmpty, ForwardList.empty]⟩
  | cons c rest ih =>
    have he : l.IsEmpty = false := by simp [ForwardList.IsEmpty, hsz]
    obtain ⟨nx, hl, hrest⟩ := PopFront_seg hs
    cases fuel with
    | zero => simp [hsz] at hf
    | succ fuel =>
      obtain ⟨h1, hrun⟩ := ih fuel { head_ := nx, size_ := l.size_ - 1 } (h.set c.1 none) hrest
        (by simp [hsz]) (by show l.size_ - 1 ≤ fuel; omega)
      refine ⟨h1, ?_⟩
      unfold ForwardList.ClearLoop
      simp only [he, Bool.false_eq_true, if_false, PopFront_eq he hs.1 hl]
      exact hrun

/-- On a list that satisfies the count invariant `Clear()` returns the empty
list, and a second `Clear()` changes nothing. -/
theorem Clear_of_chain {T : Type} {cells : List (Nat × T)} {l : ForwardList} {h : Heap T}
    (hs : Seg h l.head_ cells none) (hsz : l.size_ = cells.length) :
    ∃ h1, l.Clear h = .ok () (ForwardList.empty, h1) ∧
      ForwardList.empty.Clear h1 = .ok () (ForwardList.empty, h1) := by
  obtain ⟨h1, hrun⟩ := ClearLoop_of_chain cells l.size_ l h hs hsz (Nat.le_refl _)
  exact ⟨h1, hrun, rfl⟩

/-! ## Constructor from a literal sequence -/

theorem ofValuesLoop_seg {T : Type} (values : List T) (it : Nat) (hit : it ≤ values.length)
    (l : ForwardList) (h : Heap T) (cells : List (Nat × T)) (hs : Seg h l.head_ cells none) :
    ∃ l1 h1 new, ForwardList.ofValuesLoop values it l h = .ok () (l1, h1) ∧
      Seg h1 l1.head_ (new ++ cells) none ∧ new.map Prod.snd = values.take it ∧
      l1.size_ = l.size_ + it := by
  induction it generalizing l h cells with
  | zero => exact ⟨l, h, [], rfl, hs, by simp, rfl⟩
  | succ it ih =>
    have hlt : it < values.length := hit
    have hv : values[it]? = some values[it] := List.getElem?_eq_getElem hlt
    have hp := PushFront_seg values[it] hs
    obtain ⟨l1, h1, new, hrun, hseg, hmap, hsz⟩ :=
      ih (Nat.le_of_lt hlt) { head_ := some h.length, size_ := l.size_ + 1 } _ _ hp
    refine ⟨l1, h1, new ++ [(h.length, values[it])], ?_, ?_, ?_, ?_⟩
    · simp only [ForwardList.ofValuesLoop, hv, PushFront_eq]
      exact hrun
    · simpa using hseg
    · rw [List.map_append, hmap, List.take_succ, hv]
      rfl
    · rw [hsz]
      show l.size_ + 1 + it = l.size_ + (it + 1)
      omega

/-! ## Runs of PushFront and PopFront -/

theorem step_inv {T : Type} (r : Run T) (op : Op T) (hr : RunInv r) :
    ∃ r1, r.step op = some r1 ∧ RunInv r1 ∧
      r1.pushes = r.pushes + (if op.isPush then 1 else 0) := by
  obtain ⟨cells, hs, hsz, hcnt⟩ := hr
  cases op with
  | PushFront v =>
    refine ⟨{ self := { head_ := some r.heap.length, size_ := r.self.size_ + 1 },
              heap := r.heap ++ [some (Node.mk r.self.head_ v)],
              pushes := r.pushes + 1, pops := r.pops },
      by simp only [Run.step, PushFront_eq], ⟨(r.heap.length, v) :: cells,
      PushFront_seg v hs, ?_, ?_⟩, by simp [Op.isPush]⟩
    · simp [hsz]
    · show r.self.size_ + 1 + r.pops = r.pushes + 1
      omega
  | PopFront =>
    cases cells with
    | nil =>
      have he : r.self.IsEmpty = true := by simp [ForwardList.IsEmpty, hsz]
      refine ⟨r, by simp [Run.step, ForwardList.PopFront, he], ⟨[], hs, hsz, hcnt⟩,
        by simp [Op.isPush]⟩
    | cons c rest =>
      have he : r.self.IsEmpty = false := by simp [ForwardList.IsEmpty, hsz]
      obtain ⟨nx, hl, hrest⟩ := PopFront_seg hs
      refine ⟨{ self := { head_ := nx, size_ := r.self.size_ - 1 },
                heap := r.heap.set c.1 none, pushes := r.pushes, pops := r.pops + 1 },
        by simp only [Run.step, PopFront_eq he hs.1 hl], ⟨rest, hrest, ?_, ?_⟩,
        by simp [Op.isPush]⟩
      · show r.self.size_ - 1 = rest.length
        simp [hsz]
      · show r.self.size_ - 1 + (r.pops + 1) = r.pushes
        simp [hsz] at hcnt ⊢
        omega

theorem exec_inv {T : Type} (ops : List (Op T)) (r : Run T) (hr : RunInv r) :
    ∃ r1, Run.exec ops r = some r1 ∧ RunInv r1 ∧
      r1.pushes = r.pushes + (ops.filter Op.isPush).length := by
  induction ops generalizing r with
  | nil => exact ⟨r, rfl, hr, by simp⟩
  | cons op ops ih =>
    obtain ⟨r1, h1, hinv1, hp1⟩ := step_inv r op hr
    obtain ⟨r2, h2, hinv2, hp2⟩ := ih r1 hinv1
    refine ⟨r2, by simp [Run.exec, h1, h2], hinv2, ?_⟩
    rw [hp2, hp1]
    cases hop : op.isPush <;> simp [List.filter_cons, hop]
    omega

theorem start_inv {T : Type} (h0 : Heap T) : RunInv (Run.start h0) :=
  ⟨[], rfl, rfl, rfl⟩

theorem exec_pushes_seg {T : Type} (vs : List T) (r : Run T) (cells : List (Nat × T))
    (hs : Seg r.heap r.self.head_ cells none) :
    ∃ r1 new, Run.exec (vs.map Op.PushFront) r = some r1 ∧
      Seg r1.heap r1.self.head_ (new ++ cells) none ∧ new.map Prod.snd = vs.reverse ∧
      r1.self.size_ = r.self.size_ + vs.length := by
  induction vs generalizing r cells with
  | nil => exact ⟨r, [], rfl, hs, rfl, rfl⟩
  | cons v vs ih =>
    obtain ⟨r1, new, hrun, hseg, hmap, hsz⟩ :=
      ih { self := { head_ := some r.heap.length, size_ := r.self.size_ + 1 },
           heap := r.heap ++ [some (Node.mk r.self.head_ v)],
           pushes := r.pushes + 1, pops := r.pops } ((r.heap.length, v) :: cells)
        (PushFront_seg v hs)
    refine ⟨r1, new ++ [(r.heap.length, v)], ?_, by simpa using hseg, by simp [hmap], ?_⟩
    · simp only [List.map_cons, Run.exec, Run.step, PushFront_eq]
      exact hrun
    · rw [hsz]
      show r.self.size_ + 1 + vs.length = r.self.size_ + (vs.length + 1)
      omega

theorem reverse_second {α : Type} (c d : α) (rest : List α) :
    ((c :: d :: rest).reverse)[(c :: d :: rest).reverse.length - 2]? = some d := by
  have h1 : (c :: d :: rest).reverse = rest.reverse ++ [d, c] := by simp
  have h2 : (c :: d :: rest).reverse.length - 2 = rest.reverse.length := by simp
  rw [h2, h1, List.getElem?_append_right (Nat.le_refl _)]
  simp

/-! ## Find, the sized constructor and client positions on a chain -/

theorem FindLoop_seg {T : Type} [DecidableEq T] (self : ForwardList) (v : T) (h : Heap T)
    (cells : List (Nat × T)) (fuel : Nat) (p : Option Nat) (hs : Seg h p cells none)
    (hf : cells.length ≤ fuel) :
    ∃ it, ForwardList.FindLoop self v h fuel p = .ok it (self, h) ∧
      ((it.current_ = none ∧ ∀ c ∈ cells, c.2 ≠ v) ∨
       (∃ (i a : Nat), it.current_ = some a ∧ cells[i]? = some (a, v) ∧
          ∀ (j : Nat) (c : Nat × T), j < i → cells[j]? = some c → c.2 ≠ v)) := by
  induction cells generalizing fuel p with
  | nil =>
    have hp : p = none := hs
    subst hp
    refine ⟨self.End, by cases fuel <;> simp [ForwardList.FindLoop], Or.inl ⟨rfl, by simp⟩⟩
  | cons c rest ih =>
    obtain ⟨hp, nx, hl, hr⟩ := hs
    subst hp
    cases fuel with
    | zero => simp at hf
    | succ fuel =>
      have hf2 : rest.length ≤ fuel := by simpa using hf
      by_cases hv : c.2 = v
      · refine ⟨{ current_ := some c.1 }, by simp [ForwardList.FindLoop, hl, hv], Or.inr ?_⟩
        refine ⟨0, c.1, rfl, ?_, ?_⟩
        · simp [← hv]
        · intro j d hj
          omega
      · obtain ⟨it, hrun, hres⟩ := ih fuel nx hr hf2
        refine ⟨it, by simp [ForwardList.FindLoop, hl, hv, hrun], ?_⟩
        rcases hres with ⟨hn, hall⟩ | ⟨i, a, hit, hi, hfirst⟩
        · left
          refine ⟨hn, ?_⟩
          intro d hd
          rcases List.mem_cons.1 hd with rfl | hd
          · exact hv
          · exact hall d hd
        · right
          refine ⟨i + 1, a, hit, by simpa using hi, ?_⟩
          intro j d hj hd
          cases j with
          | zero =>
            simp at hd
            rw [← hd]
            exact hv
          | succ j =>
            simp at hd
            exact hfirst j d (by omega) hd

theorem sizedLoop_seg {T : Type} (dflt : T) (n : Nat) (l : ForwardList) (h : Heap T)
    (cells : List (Nat × T)) (hs : Seg h l.head_ cells none) :
    ∃ l1 h1 new, ForwardList.sizedLoop dflt n l h = .ok () (l1, h1) ∧
      Seg h1 l1.head_ (new ++ cells) none ∧ new.map Prod.snd = List.replicate n dflt ∧
      l1.size_ = l.size_ + n := by
  induction n generalizing l h cells with
  | zero => exact ⟨l, h, [], rfl, hs, rfl, rfl⟩
  | succ n ih =>
    obtain ⟨l1, h1, new, hrun, hseg, hmap, hsz⟩ :=
      ih { head_ := some h.length, size_ := l.size_ + 1 } _ _ (PushFront_seg dflt hs)
    refine ⟨l1, h1, new ++ [(h.length, dflt)], ?_, by simpa using hseg, ?_, ?_⟩
    · simp only [ForwardList.sizedLoop, PushFront_eq]
      exact hrun
    · rw [List.map_append, hmap, List.replicate_succ']
      rfl
    · rw [hsz]
      show l.size_ + 1 + n = l.size_ + (n + 1)
      omega

theorem advance_seg {T : Type} (n : Nat) (h : Heap T) (p : Option Nat) (cells : List (Nat × T))
    (hs : Seg h p cells none) :
    ∃ it, advance n h { current_ := p } = some it ∧
      (it.current_ = none ∨
        ∃ (i a : Nat) (x : T), cells[i]? = some (a, x) ∧ it.current_ = some a) := by
  induction n generalizing p cells with
  | zero =>
    refine ⟨{ current_ := p }, rfl, ?_⟩
    cases cells with
    | nil => exact Or.inl hs
    | cons c rest => exact Or.inr ⟨0, c.1, c.2, by simp, hs.1⟩
  | succ n ih =>
    cases cells with
    | nil =>
      have hp : p = none := hs
      subst hp
      exact ⟨{ current_ := none }, rfl, Or.inl rfl⟩
    | cons c rest =>
      obtain ⟨hp, nx, hl, hr⟩ := hs
      subst hp
      obtain ⟨it, hrun, hres⟩ := ih nx rest hr
      refine ⟨it, ?_, ?_⟩
      · simp [advance, ForwardListIterator.ne, ForwardListIterator.default,
          ForwardListIterator.preInc, hl, hrun]
      · rcases hres with hn | ⟨i, a, x, hi, hit⟩
        · exact Or.inl hn
        · exact Or.inr ⟨i + 1, a, x, by simpa using hi, hit⟩

/-! ## The copy loop on a chain -/

theorem CopyLoop_nil {T : Type} (fuel : Nat) (self : ForwardList) (g : Heap T)
    (prev : Option Nat) : ForwardList.CopyLoop fuel self g none prev = .ok () (self, g) := by
  cases fuel <;> simp [ForwardList.CopyLoop]

theorem CopyLoop_step_prev {T : Type} (fuel : Nat) (self : ForwardList) (g : Heap T)
    {a pa : Nat} {nx : Option Nat} {v pv : T}
    (hl : g.load (some a) = some (Node.mk nx v))
    (hlp : g.load (some pa) = some (Node.mk none pv)) (hne : a ≠ pa) :
    ForwardList.CopyLoop (fuel + 1) self g (some a) (some pa) =
      ForwardList.CopyLoop fuel self
        ((g ++ [some (Node.mk none v)]).set pa (some (Node.mk (some g.length) pv))) nx
        (some g.length) := by
  have hpa : pa < g.length := load_lt hlp
  have ha : a < g.length := load_lt hl
  have h1 : Heap.load (g ++ [some (Node.mk none v)]) (some pa) = some (Node.mk none pv) := by
    rw [load_append g _ hpa, hlp]
  have h2 : Heap.load ((g ++ [some (Node.mk none v)]).set pa
      (some (Node.mk (some g.length) pv))) (some a) = some (Node.mk nx v) := by
    rw [load_insert_frame g _ _ hne ha, hl]
  simp [ForwardList.CopyLoop, hl, Heap.alloc, Heap.setNext, Node.new, h1, h2]

theorem CopyLoop_step_first {T : Type} (fuel : Nat) (self : ForwardList) (g : Heap T)
    {a : Nat} {nx : Option Nat} {v : T} (hl : g.load (some a) = some (Node.mk nx v)) :
    ForwardList.CopyLoop (fuel + 1) self g (some a) none =
      ForwardList.CopyLoop fuel { head_ := some g.length, size_ := self.size_ }
        (g ++ [some (Node.mk none v)]) nx (some g.length) := by
  have h1 : Heap.load (g ++ [some (Node.mk none v)]) (some a) = some (Node.mk nx v) := by
    rw [load_append g _ (load_lt hl), hl]
  simp [ForwardList.CopyLoop, hl, Heap.alloc, Node.new, h1]

theorem CopyLoop_prev {T : Type} (todo : List (Nat × T)) (fuel : Nat) (self : ForwardList)
    (g : Heap T) (node : Option Nat) (pre : List (Nat × T)) (pa : Nat) (pv : T) (L0 : Nat)
    (hs : Seg g node todo none) (hf : todo.length ≤ fuel)
    (hold : ∀ c ∈ todo, c.1 < L0) (hL : L0 ≤ g.length)
    (hd : Seg g self.head_ (pre ++ [(pa, pv)]) none)
    (hnew : ∀ c ∈ pre ++ [(pa, pv)], L0 ≤ c.1) :
    ∃ g1 new, ForwardList.CopyLoop fuel self g node (some pa) = .ok () (self, g1) ∧
      Seg g1 self.head_ (pre ++ (pa, pv) :: new) none ∧
      new.map Prod.snd = todo.map Prod.snd ∧
      (∀ c ∈ new, L0 ≤ c.1) ∧
      (∀ e, e < L0 → g1.load (some e) = g.load (some e)) ∧ g.length ≤ g1.length := by
  induction todo generalizing fuel g node pre pa pv with
  | nil =>
    have hn : node = none := hs
    subst hn
    exact ⟨g, [], CopyLoop_nil _ _ _ _, hd, rfl, by simp, fun _ _ => rfl, Nat.le_refl _⟩
  | cons c rest ih =>
    obtain ⟨hp, nx, hl, hr⟩ := hs
    subst hp
    cases fuel with
    | zero => simp at hf
    | succ fuel =>
      obtain ⟨m, _, _, nx2, hlpa, hnil⟩ := (seg_append g pre [(pa, pv)] self.head_ none).1 hd
      have hnx2 : nx2 = none := hnil
      subst hnx2
      have hpa : pa < g.length := load_lt hlpa
      have hcL : c.1 < L0 := hold c (List.mem_cons_self _ _)
      have hpaL : L0 ≤ pa := hnew (pa, pv) (by simp)
      have hne : c.1 ≠ pa := by omega
      obtain ⟨nx3, hl3, hseg⟩ := InsertAfter_seg c.2 hd
      have hnx3 : nx3 = none := by
        have h := hl3.symm.trans hlpa
        exact congrArg Node.next_ (Option.some.inj h)
      subst hnx3
      have hframe : ∀ e, e < L0 →
          Heap.load ((g ++ [some (Node.mk none c.2)]).set pa
            (some (Node.mk (some g.length) pv))) (some e) = g.load (some e) := by
        intro e he
        exact load_insert_frame g _ _ (by omega) (by omega)
      obtain ⟨g1, new, hrun, hseg1, hmap, hfresh, hfr, hlen⟩ :=
        ih fuel ((g ++ [some (Node.mk none c.2)]).set pa (some (Node.mk (some g.length) pv)))
          nx (pre ++ [(pa, pv)]) g.length c.2
          (seg_frame hr (fun d hd2 => hframe d.1 (hold d (List.mem_cons_of_mem _ hd2))))
          (by simpa using hf)
          (fun d hd2 => hold d (List.mem_cons_of_mem _ hd2))
          (by simp; omega)
          (by simpa using hseg)
          (by
            intro d hd2
            rcases List.mem_append.1 hd2 with hd3 | hd3
            · exact hnew d hd3
            · simp at hd3
              subst hd3
              exact hL)
      refine ⟨g1, (g.length, c.2) :: new, ?_, by simpa using hseg1, by simp [hmap], ?_, ?_, ?_⟩
      · rw [CopyLoop_step_prev fuel self g hl hlpa hne]
        exact hrun
      · intro d hd2
        rcases List.mem_cons.1 hd2 with rfl | hd3
        · exact hL
        · exact hfresh d hd3
      · intro e he
        rw [hfr e he, hframe e he]
      · have : g.length ≤ ((g ++ [some (Node.mk none c.2)]).set pa
            (some (Node.mk (some g.length) pv))).length := by simp
        omega

theorem CopyLoop_first {T : Type} (todo : List (Nat × T)) (fuel : Nat) (self : ForwardList)
    (g : Heap T) (node : Option Nat) (hs : Seg g node todo none) (hf : todo.length ≤ fuel)
    (hh : self.head_ = none) :
    ∃ l1 g1 new, ForwardList.CopyLoop fuel self g node none = .ok () (l1, g1) ∧
      l1.size_ = self.size_ ∧ Seg g1 l1.head_ new none ∧
      new.map Prod.snd = todo.map Prod.snd ∧
      (∀ c ∈ new, g.length ≤ c.1) ∧
      (∀ e, e < g.length → g1.load (some e) = g.load (some e)) ∧ g.length ≤ g1.length := by
  have hlt := seg_lt hs
  cases todo with
  | nil =>
    have hn : node = none := hs
    subst hn
    exact ⟨self, g, [], CopyLoop_nil _ _ _ _, rfl, hh, rfl, by simp, fun _ _ => rfl,
      Nat.le_refl _⟩
  | cons c rest =>
    obtain ⟨hp, nx, hl, hr⟩ := hs
    subst hp
    cases fuel with
    | zero => simp at hf
    | succ fuel =>
      obtain ⟨g1, new, hrun, hseg1, hmap, hfresh, hfr, hlen⟩ :=
        CopyLoop_prev rest fuel { head_ := some g.length, size_ := self.size_ }
          (g ++ [some (Node.mk none c.2)]) nx [] g.length c.2 g.length
          (seg_push _ hr) (by simpa using hf)
          (fun d hd2 => hlt d (List.mem_cons_of_mem _ hd2)) (by simp)
          ⟨rfl, none, load_append_new g _, rfl⟩ (by simp)
      refine ⟨{ head_ := some g.length, size_ := self.size_ }, g1, (g.length, c.2) :: new,
        ?_, rfl, by simpa using hseg1, by simp [hmap], ?_, ?_, ?_⟩
      · rw [CopyLoop_step_first fuel self g hl]
        exact hrun
      · intro d hd2
        rcases List.mem_cons.1 hd2 with rfl | hd3
        · exact Nat.le_refl _
        · exact hfresh d hd3
      · intro e he
        rw [hfr e he, load_append g _ he]
      · have : g.length ≤ (g ++ [some (Node.mk none c.2)]).length := by simp
        omega

/-! ## Footprint of the calls on one list -/

theorem Owns_refl {T : Type} {h : Heap T} {cells : List (Nat × T)} {l : ForwardList}
    (hs : Seg h l.head_ cells none) : Owns h cells l h :=
  ⟨cells, hs, fun _ _ _ => rfl, fun _ hc => Or.inl (List.mem_map_of_mem Prod.fst hc),
    Nat.le_refl _⟩

theorem Owns_trans {T : Type} {h h1 h2 : Heap T} {cells cells1 : List (Nat × T)}
    {l2 : ForwardList}
    (hfr : ∀ e, e ∉ cells.map Prod.fst → e < h.length → h1.load (some e) = h.load (some e))
    (hsub : ∀ c ∈ cells1, c.1 ∈ cells.map Prod.fst ∨ h.length ≤ c.1)
    (hlen : h.length ≤ h1.length) (h12 : Owns h1 cells1 l2 h2) : Owns h cells l2 h2 := by
  obtain ⟨cells2, hseg2, hfr2, hsub2, hlen2⟩ := h12
  refine ⟨cells2, hseg2, ?_, ?_, Nat.le_trans hlen hlen2⟩
  · intro e he hlt
    have he1 : e ∉ cells1.map Prod.fst := by
      intro hmem
      obtain ⟨d, hd, hde⟩ := List.mem_map.1 hmem
      rcases hsub d hd with h3 | h3
      · exact he (hde ▸ h3)
      · omega
    rw [hfr2 e he1 (by omega), hfr e he hlt]
  · intro c hc
    rcases hsub2 c hc with h3 | h3
    · obtain ⟨d, hd, hdc⟩ := List.mem_map.1 h3
      rw [← hdc]
      exact hsub d hd
    · right
      omega

theorem PushFront_owns {T : Type} {h : Heap T} {cells : List (Nat × T)} {l : ForwardList}
    (v : T) (hs : Seg h l.head_ cells none) {st : ForwardList × Heap T}
    (hrun : settle (l.PushFront v h) = some st) : Owns h cells st.1 st.2 := by
  rw [PushFront_eq] at hrun
  simp only [settle, Option.some.injEq] at hrun
  subst hrun
  refine ⟨(h.length, v) :: cells, PushFront_seg v hs, ?_, ?_, by simp⟩
  · intro e _ hlt
    exact load_append h _ hlt
  · intro c hc
    rcases List.mem_cons.1 hc with rfl | hc
    · exact Or.inr (Nat.le_refl _)
    · exact Or.inl (List.mem_map_of_mem Prod.fst hc)

theorem PopFront_owns {T : Type} {h : Heap T} {cells : List (Nat × T)} {l : ForwardList}
    (hs : Seg h l.head_ cells none) {st : ForwardList × Heap T}
    (hrun : settle (l.PopFront h) = some st) : Owns h cells st.1 st.2 := by
  cases he : l.IsEmpty with
  | true =>
    simp only [ForwardList.PopFront, he, if_true, settle, Option.some.injEq] at hrun
    subst hrun
    exact Owns_refl hs
  | false =>
    cases cells with
    | nil =>
      have hh : l.head_ = none := hs
      simp [ForwardList.PopFront, he, hh, Heap.load, settle] at hrun
    | cons c rest =>
      obtain ⟨nx, hl, hrest⟩ := PopFront_seg hs
      rw [PopFront_eq he hs.1 hl] at hrun
      simp only [settle, Option.some.injEq] at hrun
      subst hrun
      refine ⟨rest, hrest, ?_, ?_, by simp⟩
      · intro e hne _
        apply load_set_other
        intro hce
        exact hne (hce ▸ List.mem_map_of_mem Prod.fst (List.mem_cons_self _ _))
      · intro d hd
        exact Or.inl (List.mem_map_of_mem Prod.fst (List.mem_cons_of_mem _ hd))

theorem InsertAfter_owns {T : Type} {h : Heap T} {cells : List (Nat × T)} {l : ForwardList}
    (v : T) (hs : Seg h l.head_ cells none) {it : ForwardListIterator}
    (hit : it.current_ = none ∨
      ∃ (i a : Nat) (x : T), cells[i]? = some (a, x) ∧ it.current_ = some a)
    {st : ForwardList × Heap T} (hrun : settle (l.InsertAfter it v h) = some st) :
    Owns h cells st.1 st.2 := by
  cases it with
  | mk cur =>
    rcases hit with hn | ⟨i, a, x, hi, hcur⟩
    · have hn2 : cur = none := hn
      subst hn2
      simp only [ForwardList.InsertAfter, Heap.alloc, settle, Option.some.injEq] at hrun
      subst hrun
      refine ⟨[(h.length, v)], ⟨rfl, none, load_append_new h _, rfl⟩, ?_, ?_, by simp⟩
      · intro e _ hlt
        exact load_append h _ hlt
      · intro c hc
        simp at hc
        subst hc
        exact Or.inr (Nat.le_refl _)
    · have hcur2 : cur = some a := hcur
      subst hcur2
      have hsplit := split_at hi
      have hs2 := hs
      rw [hsplit] at hs2
      obtain ⟨nx, hl, hseg⟩ := InsertAfter_seg v hs2
      rw [InsertAfter_eq l v hl] at hrun
      simp only [settle, Option.some.injEq] at hrun
      subst hrun
      have hamem : a ∈ cells.map Prod.fst := List.mem_map_of_mem Prod.fst (List.getElem?_mem hi)
      refine ⟨_, hseg, ?_, ?_, by simp⟩
      · intro e hne hlt
        apply load_insert_frame h _ _ _ hlt
        intro hea
        exact hne (hea ▸ hamem)
      · intro c hc
        rcases List.mem_append.1 hc with hc1 | hc1
        · exact Or.inl (List.mem_map_of_mem Prod.fst (List.mem_of_mem_take hc1))
        · rcases List.mem_cons.1 hc1 with rfl | hc2
          · exact Or.inl hamem
          · rcases List.mem_cons.1 hc2 with rfl | hc3
            · exact Or.inr (Nat.le_refl _)
            · exact Or.inl (List.mem_map_of_mem Prod.fst (List.mem_of_mem_drop hc3))

theorem EraseAfter_cases {T : Type} {h : Heap T} {cells : List (Nat × T)} {l : ForwardList}
    (hs : Seg h l.head_ cells none) {it : ForwardListIterator}
    (hit : it.current_ = none ∨
      ∃ (i a : Nat) (x : T), cells[i]? = some (a, x) ∧ it.current_ = some a)
    (hne : l.IsEmpty = false) :
    l.EraseAfter it h = .ok () (l, h) ∨
    ∃ (i a d : Nat) (x y : T) (nx : Option Nat),
      cells[i]? = some (a, x) ∧ cells[i + 1]? = some (d, y) ∧ a ≠ d ∧
      l.EraseAfter it h =
        .ok () ({ head_ := l.head_, size_ := l.size_ - 1 },
          (h.set a (some (Node.mk nx x))).set d none) ∧
      Seg ((h.set a (some (Node.mk nx x))).set d none) l.head_ (cells.eraseIdx (i + 1)) none := by
  cases it with
  | mk cur =>
    rcases hit with hn | ⟨i, a, x, hi, hcur⟩
    · have hn2 : cur = none := hn
      subst hn2
      left
      simp [ForwardList.EraseAfter, hne]
    · have hcur2 : cur = some a := hcur
      subst hcur2
      have htake : cells.take (i + 1) = cells.take i ++ [(a, x)] := by
        rw [List.take_succ, hi]
        rfl
      cases hi2 : cells[i + 1]? with
      | none =>
        left
        have hsplit := split_at hi
        have hdrop : cells.drop (i + 1) = [] :=
          List.drop_eq_nil_of_le (List.getElem?_eq_none_iff.1 hi2)
        rw [hdrop] at hsplit
        have hs2 := hs
        rw [hsplit] at hs2
        obtain ⟨m, _, _, nx, hl, hnil⟩ := (seg_append h _ _ _ _).1 hs2
        have hnx : nx = none := hnil
        exact EraseAfter_last hne hl hnx
      | some dy =>
        right
        have hsplit : cells = cells.take i ++ (a, x) :: (dy.1, dy.2) :: cells.drop (i + 2) := by
          have h2 := split_at hi2
          rw [htake] at h2
          simpa using h2
        have hs2 := hs
        rw [hsplit] at hs2
        obtain ⟨nx, hl, hld, had, hseg⟩ := EraseAfter_seg hs2
        have herase : cells.eraseIdx (i + 1) = cells.take i ++ (a, x) :: cells.drop (i + 2) := by
          rw [List.eraseIdx_eq_take_drop_succ, htake]
          simp
        rw [← herase] at hseg
        exact ⟨i, a, dy.1, x, dy.2, nx, hi, hi2, had, EraseAfter_eq hne hl rfl hld had, hseg⟩

theorem EraseAfter_owns {T : Type} {h : Heap T} {cells : List (Nat × T)} {l : ForwardList}
    (hs : Seg h l.head_ cells none) {it : ForwardListIterator}
    (hit : it.current_ = none ∨
      ∃ (i a : Nat) (x : T), cells[i]? = some (a, x) ∧ it.current_ = some a)
    {st : ForwardList × Heap T} (hrun : settle (l.EraseAfter it h) = some st) :
    Owns h cells st.1 st.2 := by
  cases he : l.IsEmpty with
  | true =>
    simp only [ForwardList.EraseAfter, he, if_true, settle, Option.some.injEq] at hrun
    subst hrun
    exact Owns_refl hs
  | false =>
    rcases EraseAfter_cases hs hit he with hsame | ⟨i, a, d, x, y, nx, hi, hi2, _, heq, hseg⟩
    · rw [hsame] at hrun
      simp only [settle, Option.some.injEq] at hrun
      subst hrun
      exact Owns_refl hs
    · rw [heq] at hrun
      simp only [settle, Option.some.injEq] at hrun
      subst hrun
      have hamem : a ∈ cells.map Prod.fst := List.mem_map_of_mem Prod.fst (List.getElem?_mem hi)
      have hdmem : d ∈ cells.map Prod.fst := List.mem_map_of_mem Prod.fst (List.getElem?_mem hi2)
      refine ⟨_, hseg, ?_, ?_, by simp⟩
      · intro e hne _
        rw [load_set_other, load_set_other]
        · intro hae
          exact hne (hae ▸ hamem)
        · intro hde
          exact hne (hde ▸ hdmem)
      · intro c hc
        exact Or.inl (List.mem_map_of_mem Prod.fst (List.mem_of_mem_eraseIdx hc))

theorem ClearLoop_owns {T : Type} (fuel : Nat) {h : Heap T} {cells : List (Nat × T)}
    {l : ForwardList} (hs : Seg h l.head_ cells none) {st : ForwardList × Heap T}
    (hrun : settle (ForwardList.ClearLoop fuel l h) = some st) : Owns h cells st.1 st.2 := by
  induction fuel generalizing h cells l with
  | zero =>
    cases he : l.IsEmpty with
    | true =>
      simp only [ForwardList.ClearLoop, he, if_true, settle, Option.some.injEq] at hrun
      subst hrun
      exact Owns_refl hs
    | false => simp [ForwardList.ClearLoop, he, settle] at hrun
  | succ fuel ih =>
    cases he : l.IsEmpty with
    | true =>
      simp only [ForwardList.ClearLoop, he, if_true, settle, Option.some.injEq] at hrun
      subst hrun
      exact Owns_refl hs
    | false =>
      cases cells with
      | nil =>
        have hh : l.head_ = none := hs
        simp [ForwardList.ClearLoop, ForwardList.PopFront, he, hh, Heap.load, settle] at hrun
      | cons c rest =>
        obtain ⟨nx, hl, hrest⟩ := PopFront_seg hs
        unfold ForwardList.ClearLoop at hrun
        simp only [he, Bool.false_eq_true, if_false, PopFront_eq he hs.1 hl] at hrun
        have h12 := ih (l := { head_ := nx, size_ := l.size_ - 1 }) hrest hrun
        refine Owns_trans ?_ ?_ (by simp) h12
        · intro e hne _
          apply load_set_other
          intro hce
          exact hne (hce ▸ List.mem_map_of_mem Prod.fst (List.mem_cons_self _ _))
        · intro d hd
          exact Or.inl (List.mem_map_of_mem Prod.fst (List.mem_cons_of_mem _ hd))

theorem run_owns {T : Type} {cells : List (Nat × T)} {st st1 : ForwardList × Heap T}
    (c : Call T) (hs : Seg st.2 st.1.head_ cells none) (hrun : Call.run st c = some st1) :
    Owns st.2 cells st1.1 st1.2 := by
  cases c with
  | PushFront v => exact PushFront_owns v hs hrun
  | PopFront => exact PopFront_owns hs hrun
  | InsertAfter pos v =>
    cases pos with
    | End => exact InsertAfter_owns v hs (Or.inl rfl) hrun
    | FromBegin n =>
      obtain ⟨it, hadv, hit⟩ := advance_seg n st.2 st.1.head_ cells hs
      simp only [Call.run, Pos.iter, ForwardList.Begin, hadv] at hrun
      exact InsertAfter_owns v hs hit hrun
  | EraseAfter pos =>
    cases pos with
    | End => exact EraseAfter_owns hs (Or.inl rfl) hrun
    | FromBegin n =>
      obtain ⟨it, hadv, hit⟩ := advance_seg n st.2 st.1.head_ cells hs
      simp only [Call.run, Pos.iter, ForwardList.Begin, hadv] at hrun
      exact EraseAfter_owns hs hit hrun
  | Clear => exact ClearLoop_owns _ hs hrun

theorem exec_owns {T : Type} (cs : List (Call T)) {cells : List (Nat × T)}
    {st st2 : ForwardList × Heap T} (hs : Seg st.2 st.1.head_ cells none)
    (hrun : Call.exec cs st = some st2) : Owns st.2 cells st2.1 st2.2 := by
  induction cs generalizing st cells with
  | nil =>
    simp only [Call.exec, Option.some.injEq] at hrun
    subst hrun
    exact Owns_refl hs
  | cons c cs ih =>
    cases hc : Call.run st c with
    | none => simp [Call.exec, hc] at hrun
    | some st1 =>
      simp only [Call.exec, hc] at hrun
      obtain ⟨cells1, hseg1, hfr, hsub, hlen⟩ := run_owns c hs hc
      exact Owns_trans hfr hsub hlen (ih hseg1 hrun)

/-- Chain disjoint from the footprint is left as it was. -/
theorem Owns_frame {T : Type} {h h1 : Heap T} {cells acells : List (Nat × T)}
    {l1 : ForwardList} {p : Option Nat} (ho : Owns h cells l1 h1)
    (ha : Seg h p acells none) (hdis : ∀ c ∈ acells, c.1 ∉ cells.map Prod.fst) :
    Seg h1 p acells none ∧
      ∃ cells1, Seg h1 l1.head_ cells1 none ∧ ∀ c ∈ acells, c.1 ∉ cells1.map Prod.fst := by
  obtain ⟨cells1, hseg1, hfr, hsub, _⟩ := ho
  have hlt := seg_lt ha
  refine ⟨seg_frame ha (fun c hc => hfr c.1 (hdis c hc) (hlt c hc)), cells1, hseg1, ?_⟩
  intro c hc hmem
  obtain ⟨d, hd, hdc⟩ := List.mem_map.1 hmem
  rcases hsub d hd with h3 | h3
  · exact hdis c hc (hdc ▸ h3)
  · have := hlt c hc
    omega

/-! ## Copy construction, assignment and erase runs on chains -/

theorem copy_chain {T : Type} {b : ForwardList} {h : Heap T} {fuel : Nat}
    {bcells : List (Nat × T)} (hb : Seg h b.head_ bcells none) (hbl : bcells.length ≤ fuel) :
    ∃ l1 h1 copied, ForwardList.copy b h fuel = .ok () (l1, h1) ∧ l1.size_ = b.size_ ∧
      Seg h1 l1.head_ copied none ∧ copied.map Prod.snd = bcells.map Prod.snd ∧
      Seg h1 b.head_ bcells none ∧ (∀ c ∈ copied, h.length ≤ c.1) := by
  obtain ⟨l1, g1, new, hrun, _, hseg, hmap, hfresh, hfr, _⟩ :=
    CopyLoop_first bcells fuel ForwardList.empty h b.head_ hb hbl rfl
  have hlt := seg_lt hb
  refine ⟨{ head_ := l1.head_, size_ := b.size_ }, g1, new, ?_, rfl, hseg, hmap,
    seg_frame hb (fun c hc => hfr c.1 (hlt c hc)), hfresh⟩
  simp [ForwardList.copy, hrun]

theorem assign_chain {T : Type} {a b : ForwardList} {h : Heap T} {fuel : Nat}
    {acells bcells : List (Nat × T)}
    (ha : Seg h a.head_ acells none) (hasz : a.size_ = acells.length)
    (hb : Seg h b.head_ bcells none) (hbl : bcells.length ≤ fuel)
    (hdis : ∀ c ∈ bcells, c.1 ∉ acells.map Prod.fst) :
    ∃ a1 h1 copied, a.assign (.distinct b) h fuel = .ok () (a1, h1) ∧ a1.size_ = b.size_ ∧
      Seg h1 a1.head_ copied none ∧ copied.map Prod.snd = bcells.map Prod.snd ∧
      Seg h1 b.head_ bcells none ∧ (∀ c ∈ copied, h.length ≤ c.1) := by
  obtain ⟨h0, hclear, _⟩ := Clear_of_chain ha hasz
  have hown : Owns h acells (ForwardList.empty, h0).1 (ForwardList.empty, h0).2 := by
    apply ClearLoop_owns a.size_ ha
    have hc : ForwardList.ClearLoop a.size_ a h = .ok () (ForwardList.empty, h0) := hclear
    rw [hc]
    rfl
  have hlen0 : h.length ≤ h0.length := by
    obtain ⟨_, _, _, _, hl⟩ := hown
    exact hl
  obtain ⟨hb0, _⟩ := Owns_frame hown hb hdis
  obtain ⟨l1, g1, new, hrun, _, hseg, hmap, hfresh, hfr, _⟩ :=
    CopyLoop_first bcells fuel ForwardList.empty h0 b.head_ hb0 hbl rfl
  have hlt := seg_lt hb0
  refine ⟨{ head_ := l1.head_, size_ := b.size_ }, g1, new, ?_, rfl, hseg, hmap,
    seg_frame hb0 (fun c hc => hfr c.1 (hlt c hc)),
    fun c hc => Nat.le_trans hlen0 (hfresh c hc)⟩
  simp [ForwardList.assign, hclear, hrun]

/-- Nodes allocated after a chain was built are not nodes of that chain. -/
theorem fresh_disjoint {T : Type} {h : Heap T} {p : Option Nat} {acells copied : List (Nat × T)}
    (ha : Seg h p acells none) (hfresh : ∀ c ∈ copied, h.length ≤ c.1) :
    (∀ c ∈ copied, c.1 ∉ acells.map Prod.fst) ∧ (∀ c ∈ acells, c.1 ∉ copied.map Prod.fst) := by
  have hlt := seg_lt ha
  constructor
  · intro c hc hmem
    obtain ⟨d, hd, hdc⟩ := List.mem_map.1 hmem
    have h1 := hlt d hd
    have h2 := hfresh c hc
    omega
  · intro c hc hmem
    obtain ⟨d, hd, hdc⟩ := List.mem_map.1 hmem
    have h1 := hlt c hc
    have h2 := hfresh d hd
    omega

theorem Front_of_chain {T : Type} {l : ForwardList} {h : Heap T} {c : Nat × T}
    {rest : List (Nat × T)} (hs : Seg h l.head_ (c :: rest) none) (hne : l.IsEmpty = false) :
    l.Front h = .ok c.2 (l, h) := by
  obtain ⟨hp, nx, hl, _⟩ := hs
  simp [ForwardList.Front, hne, hp, hl]

theorem erase_step {T : Type} {l : ForwardList} {h : Heap T} {c : Nat × T}
    {rest : List (Nat × T)} (hs : Seg h l.head_ (c :: rest) none)
    (hsz : (c :: rest).length ≤ l.size_) (pos : Pos) :
    ∃ l1 h1 rest1, Call.run (l, h) (Call.EraseAfter pos) = some (l1, h1) ∧
      l1.head_ = l.head_ ∧ Seg h1 l1.head_ (c :: rest1) none ∧
      (c :: rest1).length ≤ l1.size_ ∧ rest1.length ≤ rest.length := by
  have hne : l.IsEmpty = false := by
    simp only [List.length_cons] at hsz
    simp [ForwardList.IsEmpty]
    omega
  have key : ∀ it : ForwardListIterator,
      (it.current_ = none ∨
        ∃ (i a : Nat) (x : T), (c :: rest)[i]? = some (a, x) ∧ it.current_ = some a) →
      ∃ l1 h1 rest1, settle (l.EraseAfter it h) = some (l1, h1) ∧
        l1.head_ = l.head_ ∧ Seg h1 l1.head_ (c :: rest1) none ∧
        (c :: rest1).length ≤ l1.size_ ∧ rest1.length ≤ rest.length := by
    intro it hit
    rcases EraseAfter_cases hs hit hne with hsame | ⟨i, a, d, x, y, nx, hi, hi2, _, heq, hseg⟩
    · exact ⟨l, h, rest, by rw [hsame]; rfl, rfl, hs, hsz, Nat.le_refl _⟩
    · have hilt : i < rest.length := by
        have := (List.getElem?_eq_some_iff.1 hi2).1
        simpa using this
      have hlen : (rest.eraseIdx i).length = rest.length - 1 := List.length_eraseIdx_of_lt hilt
      refine ⟨{ head_ := l.head_, size_ := l.size_ - 1 }, _, rest.eraseIdx i,
        by rw [heq]; rfl, rfl, by simpa using hseg, ?_, by omega⟩
      simp only [List.length_cons] at hsz ⊢
      show (rest.eraseIdx i).length + 1 ≤ l.size_ - 1
      omega
  cases pos with
  | End => exact key { current_ := none } (Or.inl rfl)
  | FromBegin n =>
    obtain ⟨it, hadv, hit⟩ := advance_seg n h l.head_ (c :: rest) hs
    obtain ⟨l1, h1, rest1, hrun, hres⟩ := key it hit
    refine ⟨l1, h1, rest1, ?_, hres⟩
    simp only [Call.run, Pos.iter, ForwardList.Begin, hadv]
    exact hrun

theorem erase_exec {T : Type} (ps : List Pos) {l : ForwardList} {h : Heap T} {c : Nat × T}
    {rest : List (Nat × T)} (hs : Seg h l.head_ (c :: rest) none)
    (hsz : (c :: rest).length ≤ l.size_) :
    ∃ l1 h1 rest1, Call.exec (ps.map Call.EraseAfter) (l, h) = some (l1, h1) ∧
      l1.head_ = l.head_ ∧ Seg h1 l1.head_ (c :: rest1) none ∧
      (c :: rest1).length ≤ l1.size_ ∧ rest1.length ≤ rest.length := by
  induction ps generalizing l h rest with
  | nil => exact ⟨l, h, rest, rfl, rfl, hs, hsz, Nat.le_refl _⟩
  | cons pos ps ih =>
    obtain ⟨l1, h1, rest1, hrun, hhead, hseg, hsz1, hlen1⟩ := erase_step hs hsz pos
    obtain ⟨l2, h2, rest2, hrun2, hhead2, hseg2, hsz2, hlen2⟩ := ih hseg hsz1
    refine ⟨l2, h2, rest2, ?_, hhead2.trans hhead, hseg2, hsz2, Nat.le_trans hlen2 hlen1⟩
    simp only [List.map_cons, Call.exec, hrun]
    exact hrun2

/-! ## Runs without InsertAfter keep the count invariant -/

theorem run_total {T : Type} {l : ForwardList} {h : Heap T} {cells : List (Nat × T)}
    (c : Call T) (hs : Seg h l.head_ cells none) (hsz : l.size_ = cells.length)
    (hc : c.noInsert = true) :
    ∃ l1 h1 cells1, Call.run (l, h) c = some (l1, h1) ∧ Seg h1 l1.head_ cells1 none ∧
      l1.size_ = cells1.length := by
  have hraise : ∀ it : ForwardListIterator, l.IsEmpty = true →
      settle (l.EraseAfter it h) = some (l, h) := by
    intro it he
    simp [ForwardList.EraseAfter, he, settle]
  have herase : ∀ it : ForwardListIterator,
      (it.current_ = none ∨
        ∃ (i a : Nat) (x : T), cells[i]? = some (a, x) ∧ it.current_ = some a) →
      ∃ l1 h1 cells1, settle (l.EraseAfter it h) = some (l1, h1) ∧
        Seg h1 l1.head_ cells1 none ∧ l1.size_ = cells1.length := by
    intro it hit
    cases he : l.IsEmpty with
    | true => exact ⟨l, h, cells, hraise it he, hs, hsz⟩
    | false =>
      rcases EraseAfter_cases hs hit he with hsame | ⟨i, a, d, x, y, nx, hi, hi2, _, heq, hseg⟩
      · exact ⟨l, h, cells, by rw [hsame]; rfl, hs, hsz⟩
      · have hilt : i + 1 < cells.length := (List.getElem?_eq_some_iff.1 hi2).1
        refine ⟨{ head_ := l.head_, size_ := l.size_ - 1 }, _, cells.eraseIdx (i + 1),
          by rw [heq]; rfl, hseg, ?_⟩
        rw [List.length_eraseIdx_of_lt hilt]
        show l.size_ - 1 = cells.length - 1
        omega
  cases c with
  | PushFront v =>
    refine ⟨{ head_ := some h.length, size_ := l.size_ + 1 }, _, (h.length, v) :: cells,
      by simp only [Call.run, PushFront_eq]; rfl, PushFront_seg v hs, ?_⟩
    simp [hsz]
  | PopFront =>
    cases cells with
    | nil =>
      have he : l.IsEmpty = true := by simp [ForwardList.IsEmpty, hsz]
      exact ⟨l, h, [], by simp [Call.run, ForwardList.PopFront, he, settle], hs, hsz⟩
    | cons c rest =>
      have he : l.IsEmpty = false := by simp [ForwardList.IsEmpty, hsz]
      obtain ⟨nx, hl, hrest⟩ := PopFront_seg hs
      refine ⟨{ head_ := nx, size_ := l.size_ - 1 }, _, rest,
        by simp only [Call.run, PopFront_eq he hs.1 hl]; rfl, hrest, ?_⟩
      show l.size_ - 1 = rest.length
      simp [hsz]
  | InsertAfter pos v => simp [Call.noInsert] at hc
  | EraseAfter pos =>
    cases pos with
    | End => exact herase { current_ := none } (Or.inl rfl)
    | FromBegin n =>
      obtain ⟨it, hadv, hit⟩ := advance_seg n h l.head_ cells hs
      obtain ⟨l1, h1, cells1, hrun, hres⟩ := herase it hit
      refine ⟨l1, h1, cells1, ?_, hres⟩
      simp only [Call.run, Pos.iter, ForwardList.Begin, hadv]
      exact hrun
  | Clear =>
    obtain ⟨h1, hclear, _⟩ := Clear_of_chain hs hsz
    exact ⟨ForwardList.empty, h1, [], by simp only [Call.run, hclear]; rfl, rfl, rfl⟩

theorem exec_total {T : Type} (cs : List (Call T)) {l : ForwardList} {h : Heap T}
    {cells : List (Nat × T)} (hs : Seg h l.head_ cells none) (hsz : l.size_ = cells.length)
    (hc : cs.all Call.noInsert = true) : ∃ st, Call.exec cs (l, h) = some st := by
  induction cs generalizing l h cells with
  | nil => exact ⟨(l, h), rfl⟩
  | cons c cs ih =>
    simp only [List.all_cons, Bool.and_eq_true] at hc
    obtain ⟨l1, h1, cells1, hrun, hseg, hsz1⟩ := run_total c hs hsz hc.1
    obtain ⟨st, hst⟩ := ih hseg hsz1 hc.2
    exact ⟨st, by simp only [Call.exec, hrun, hst]⟩

theorem exec_frame {T : Type} {b : ForwardList} {h1 : Heap T} {p : Option Nat}
    {acells bcells : List (Nat × T)} {fuel : Nat}
    (hb : Seg h1 b.head_ bcells none) (ha : Seg h1 p acells none) (hlen : acells.length ≤ fuel)
    (hdis : ∀ c ∈ acells, c.1 ∉ bcells.map Prod.fst)
    (calls : List (Call T)) (st : ForwardList × Heap T)
    (hrun : Call.exec calls (b, h1) = some st) :
    traverse fuel st.2 { current_ := p } = some acells :=
  (traverse_iff _ _ _ _).2 ⟨(Owns_frame (exec_owns calls hb hrun) ha hdis).1, hlen⟩

/-! ## Claims -/

/-- C1 (defect in `InsertAfter`): on a default-constructed list, `PushFront(1)`
followed by `InsertAfter(End(), 2)` leaves `Size() == 2` while exactly one node,
the one just inserted, is reachable from the head: the branch for the end
position sets `head_ = node` without linking the old head behind the new node. -/
theorem InsertAfter_End_breaks_count :
    ForwardList.empty.PushFront (1 : Nat) [] =
      .ok () ({ head_ := some 0, size_ := 1 }, [some (Node.mk none 1)]) ∧
    ForwardList.InsertAfter { head_ := some 0, size_ := 1 }
        (ForwardList.End { head_ := some 0, size_ := 1 }) (2 : Nat) [some (Node.mk none 1)] =
      .ok () ({ head_ := some 1, size_ := 2 }, [some (Node.mk none 1), some (Node.mk none 2)]) ∧
    ForwardList.Size { head_ := some 1, size_ := 2 } = 2 ∧
    (∀ fuel, traverse (fuel + 1) [some (Node.mk none 1), some (Node.mk none 2)]
        (ForwardList.Begin { head_ := some 1, size_ := 2 }) = some [(1, 2)]) ∧
    [(1, 2)].length ≠ ForwardList.Size { head_ := some 1, size_ := 2 } := by
  refine ⟨by decide, by decide, rfl, ?_, by decide⟩
  intro fuel
  cases fuel <;> rfl

/-- C2 (defect in `InsertAfter`): on the list holding the single element 1,
`InsertAfter(End(), 2)` makes the new node the head (`Front() == 2`), but the
traversal from `Begin()` afterwards yields only 2, not 2 followed by 1: the old
element is no longer reachable. -/
theorem InsertAfter_End_drops_old_elements :
    ForwardList.toList { head_ := some 0, size_ := 1 } [some (Node.mk none (1 : Nat))] 1 =
      some [1] ∧
    ForwardList.InsertAfter { head_ := some 0, size_ := 1 }
        (ForwardList.End { head_ := some 0, size_ := 1 }) (2 : Nat) [some (Node.mk none 1)] =
      .ok () ({ head_ := some 1, size_ := 2 }, [some (Node.mk none 1), some (Node.mk none 2)]) ∧
    ForwardList.Front { head_ := some 1, size_ := 2 }
        [some (Node.mk none (1 : Nat)), some (Node.mk none 2)] =
      .ok 2 ({ head_ := some 1, size_ := 2 }, [some (Node.mk none 1), some (Node.mk none 2)]) ∧
    (∀ fuel, ForwardList.toList { head_ := some 1, size_ := 2 }
        [some (Node.mk none (1 : Nat)), some (Node.mk none 2)] (fuel + 1) = some [2]) ∧
    (∀ fuel, ForwardList.toList { head_ := some 1, size_ := 2 }
        [some (Node.mk none (1 : Nat)), some (Node.mk none 2)] fuel ≠ some [2, 1]) := by
  have key : ∀ fuel, ForwardList.toList { head_ := some 1, size_ := 2 }
      [some (Node.mk none (1 : Nat)), some (Node.mk none 2)] (fuel + 1) = some [2] := by
    intro fuel
    cases fuel <;> rfl
  refine ⟨by decide, by decide, by decide, key, ?_⟩
  intro fuel
  cases fuel with
  | zero => decide
  | succ fuel =>
    rw [key fuel]
    decide

/-- C3 (defect in `InsertAfter`, met in `Clear`): on the list reached by
`PushFront(1)` then `InsertAfter(End(), 2)` from a default-constructed list,
`Clear()` does not complete: its first `PopFront` leaves `head_` absent with
`size_ == 1`, and the second `PopFront` dereferences the absent head. -/
theorem Clear_fails_after_InsertAfter_End :
    ForwardList.empty.PushFront (1 : Nat) [] =
      .ok () ({ head_ := some 0, size_ := 1 }, [some (Node.mk none 1)]) ∧
    ForwardList.InsertAfter { head_ := some 0, size_ := 1 }
        (ForwardList.End { head_ := some 0, size_ := 1 }) (2 : Nat) [some (Node.mk none 1)] =
      .ok () ({ head_ := some 1, size_ := 2 }, [some (Node.mk none 1), some (Node.mk none 2)]) ∧
    ForwardList.PopFront { head_ := some 1, size_ := 2 }
        [some (Node.mk none (1 : Nat)), some (Node.mk none 2)] =
      .ok () ({ head_ := none, size_ := 1 }, [some (Node.mk none 1), none]) ∧
    ForwardList.PopFront { head_ := none, size_ := 1 } [some (Node.mk none (1 : Nat)), none] =
      .undefined ∧
    ForwardList.Clear { head_ := some 1, size_ := 2 }
        [some (Node.mk none (1 : Nat)), some (Node.mk none 2)] = .undefined :=
  ⟨rfl, rfl, rfl, rfl, rfl⟩

/-- C4: on a list with `Size() == 0`, each of `Front()`, `PopFront()` and
`EraseAfter(pos)`, for every position `pos`, throws the empty-container
exception with the head, the count and the heap as they were; on every list
`PushFront`, `InsertAfter`, `Find` and `Clear` never throw it. -/
theorem empty_list_raises {T : Type} [DecidableEq T] (l : ForwardList) (h : Heap T)
    (hz : l.Size = 0) :
    l.Front h = .raised (l, h) ∧ l.PopFront h = .raised (l, h) ∧
    (∀ pos, l.EraseAfter pos h = .raised (l, h)) ∧
    (∀ (m : ForwardList) (g : Heap T) (st : ForwardList × Heap T) (v : T)
        (pos : ForwardListIterator) (fuel : Nat),
      m.PushFront v g ≠ .raised st ∧ m.InsertAfter pos v g ≠ .raised st ∧
      m.Find v g fuel ≠ .raised st ∧ m.Clear g ≠ .raised st) := by
  have he : l.IsEmpty = true := by
    simpa [ForwardList.IsEmpty, ForwardList.Size] using hz
  refine ⟨by simp [ForwardList.Front, he], by simp [ForwardList.PopFront, he],
    fun pos => by simp [ForwardList.EraseAfter, he], ?_⟩
  intro m g st v pos fuel
  refine ⟨by simp [PushFront_eq], ?_, ?_, ClearLoop_no_raise _ _ _ _⟩
  · unfold ForwardList.InsertAfter
    simp only [Heap.alloc]
    split
    · split
      · simp
      · split
        · simp
        · split <;> simp
    · simp
  · unfold ForwardList.Find
    generalize m.head_ = p
    induction fuel generalizing p with
    | zero => cases p <;> simp [ForwardList.FindLoop]
    | succ fuel ih =>
      cases p with
      | none => simp [ForwardList.FindLoop]
      | some a =>
        unfold ForwardList.FindLoop
        split
        · simp
        · split
          · simp
          · exact ih _

/-- Witness for C4 on the default-constructed list over the empty heap. -/
theorem empty_list_raises_witness :
    ForwardList.empty.Size = 0 ∧
    (ForwardList.empty.Front ([] : Heap Nat) = .raised (ForwardList.empty, []) ∧
     ForwardList.empty.PopFront ([] : Heap Nat) = .raised (ForwardList.empty, []) ∧
     (∀ pos, ForwardList.empty.EraseAfter pos ([] : Heap Nat) = .raised (ForwardList.empty, [])) ∧
     (∀ (m : ForwardList) (g : Heap Nat) (st : ForwardList × Heap Nat) (v : Nat)
        (pos : ForwardListIterator) (fuel : Nat),
      m.PushFront v g ≠ .raised st ∧ m.InsertAfter pos v g ≠ .raised st ∧
      m.Find v g fuel ≠ .raised st ∧ m.Clear g ≠ .raised st)) :=
  ⟨rfl, empty_list_raises ForwardList.empty [] rfl⟩

/-- C5: run any sequence of `PushFront` and `PopFront` calls on a list made by
the default constructor and stop after any number `k` of them.  The run meets
no undefined behaviour; every `PushFront` call so far returned; the successful
`PopFront` calls never outnumber the `PushFront` calls; `Size()` is their
difference; and the next `PopFront` throws the empty-container exception
(leaving the state as it is) when the difference is 0 and returns, lowering
`Size()` by one, when it is not. -/
theorem push_pop_size {T : Type} (ops : List (Op T)) (k : Nat) (h0 : Heap T) :
    ∃ r, Run.exec (ops.take k) (Run.start h0) = some r ∧
      r.pushes = ((ops.take k).filter Op.isPush).length ∧
      r.pops ≤ r.pushes ∧
      r.self.Size = r.pushes - r.pops ∧
      (r.pushes - r.pops = 0 → r.self.PopFront r.heap = .raised (r.self, r.heap)) ∧
      (r.pushes - r.pops ≠ 0 →
        ∃ st, r.self.PopFront r.heap = .ok () st ∧ st.1.Size = r.pushes - (r.pops + 1)) := by
  obtain ⟨r, hrun, ⟨cells, hs, hsz, hcnt⟩, hp⟩ := exec_inv (ops.take k) (Run.start h0) (start_inv h0)
  have hsize : r.self.size_ = r.pushes - r.pops := by omega
  refine ⟨r, hrun, ?_, by omega, hsize, ?_, ?_⟩
  · simpa [Run.start] using hp
  · intro hd
    have he : r.self.IsEmpty = true := by
      simp [ForwardList.IsEmpty]
      omega
    simp [ForwardList.PopFront, he]
  · intro hd
    have he : r.self.IsEmpty = false := by
      simp [ForwardList.IsEmpty]
      omega
    cases cells with
    | nil =>
      simp at hsz
      omega
    | cons c rest =>
      obtain ⟨nx, hl, _⟩ := PopFront_seg hs
      refine ⟨_, PopFront_eq he hs.1 hl, ?_⟩
      show r.self.size_ - 1 = r.pushes - (r.pops + 1)
      omega

/-- C6: on a list whose traversal is `cells`, `PushFront(v)` returns; the new
node is a fresh one, it is the head and its `next_` is the previous head;
`Front()` then returns `v`; `Size()` is the old `Size()` plus 1; and the
traversal from `Begin()` is the new node holding `v` followed by the previous
nodes with their values, in their previous order. -/
theorem PushFront_spec {T : Type} (l : ForwardList) (v : T) (h : Heap T) (fuel : Nat)
    (cells : List (Nat × T)) (hx : traverse fuel h l.Begin = some cells) :
    ∃ l1 h1, l.PushFront v h = .ok () (l1, h1) ∧
      h.load (some h.length) = none ∧ l1.head_ = some h.length ∧
      h1.load l1.head_ = some (Node.mk l.head_ v) ∧
      l1.Front h1 = .ok v (l1, h1) ∧
      l1.Size = l.Size + 1 ∧
      traverse (fuel + 1) h1 l1.Begin = some ((h.length, v) :: cells) ∧
      l1.toList h1 (fuel + 1) = some (v :: cells.map Prod.snd) := by
  obtain ⟨hs, hlen⟩ := (traverse_iff fuel h l.head_ cells).1 hx
  have hseg := PushFront_seg v hs
  have htr : traverse (fuel + 1) (h ++ [some (Node.mk l.head_ v)])
      { current_ := some h.length } = some ((h.length, v) :: cells) :=
    (traverse_iff _ _ _ _).2 ⟨hseg, by simpa using hlen⟩
  refine ⟨{ head_ := some h.length, size_ := l.size_ + 1 }, h ++ [some (Node.mk l.head_ v)],
    PushFront_eq l v h, ?_, rfl, load_append_new h _, ?_, rfl, htr, ?_⟩
  · simp [Heap.load]
  · simp [ForwardList.Front, ForwardList.IsEmpty, load_append_new]
  · simp only [ForwardList.toList, ForwardList.Begin, htr]
    rfl

/-- Witness for C6: pushing 7 onto the list 1, 2, 3. -/
theorem PushFront_spec_witness :
    traverse 3 [some (Node.mk none (3 : Nat)), some (Node.mk (some 0) 2), some (Node.mk (some 1) 1)]
        (ForwardList.Begin { head_ := some 2, size_ := 3 }) = some [(2, 1), (1, 2), (0, 3)] ∧
    ∃ l1 h1, ForwardList.PushFront { head_ := some 2, size_ := 3 } (7 : Nat)
        [some (Node.mk none 3), some (Node.mk (some 0) 2), some (Node.mk (some 1) 1)] =
          .ok () (l1, h1) ∧
      Heap.load [some (Node.mk none (3 : Nat)), some (Node.mk (some 0) 2),
        some (Node.mk (some 1) 1)] (some 3) = none ∧
      l1.head_ = some 3 ∧
      h1.load l1.head_ = some (Node.mk (some 2) 7) ∧
      l1.Front h1 = .ok 7 (l1, h1) ∧
      l1.Size = 3 + 1 ∧
      traverse (3 + 1) h1 l1.Begin = some ((3, 7) :: [(2, 1), (1, 2), (0, 3)]) ∧
      l1.toList h1 (3 + 1) = some (7 :: [1, 2, 3]) :=
  ⟨by decide, PushFront_spec { head_ := some 2, size_ := 3 } 7
    [some (Node.mk none 3), some (Node.mk (some 0) 2), some (Node.mk (some 1) 1)] 3
    [(2, 1), (1, 2), (0, 3)] (by decide)⟩

/-- C7: on a list whose count is not zero and whose traversal starts with the
node `c`, `PopFront()` returns, destroys exactly that head node, lowers
`Size()` by exactly 1 and leaves the previous traversal without its first
element.  Moreover pushing `v1, ..., vn` (`n >= 2`) onto a default-constructed
list gives the traversal `vn, ..., v1`, and after one `PopFront()` the call
`Front()` returns `v(n-1)`. -/
theorem PopFront_spec {T : Type} (l : ForwardList) (h : Heap T) (fuel : Nat) (c : Nat × T)
    (rest : List (Nat × T)) (vs : List T) (h0 : Heap T)
    (hx : traverse fuel h l.Begin = some (c :: rest)) (hne : l.IsEmpty = false)
    (hn : 2 ≤ vs.length) :
    (∃ l1 h1, l.PopFront h = .ok () (l1, h1) ∧ l1.Size + 1 = l.Size ∧
      h1.load (some c.1) = none ∧
      traverse fuel h1 l1.Begin = some rest ∧
      l1.toList h1 fuel = some (rest.map Prod.snd)) ∧
    (∃ r, Run.exec (vs.map Op.PushFront) (Run.start h0) = some r ∧
      r.self.toList r.heap vs.length = some vs.reverse ∧
      ∃ l2 h2 w, r.self.PopFront r.heap = .ok () (l2, h2) ∧
        vs[vs.length - 2]? = some w ∧ l2.Front h2 = .ok w (l2, h2)) := by
  constructor
  · obtain ⟨hs, hlen⟩ := (traverse_iff fuel h l.head_ (c :: rest)).1 hx
    obtain ⟨nx, hl, hrest⟩ := PopFront_seg hs
    have hsz : l.size_ ≠ 0 := by simpa [ForwardList.IsEmpty] using hne
    have htr : traverse fuel (h.set c.1 none) { current_ := nx } = some rest :=
      (traverse_iff _ _ _ _).2 ⟨hrest, by simp at hlen; omega⟩
    refine ⟨{ head_ := nx, size_ := l.size_ - 1 }, h.set c.1 none, PopFront_eq hne hs.1 hl,
      ?_, load_set_same h none (load_lt hl), htr, ?_⟩
    · show l.size_ - 1 + 1 = l.size_
      omega
    · simp only [ForwardList.toList, ForwardList.Begin, htr]
      rfl
  · obtain ⟨r, new, hrun, hs, hmap, hsz⟩ := exec_pushes_seg vs (Run.start h0) [] rfl
    rw [List.append_nil] at hs
    have hlen : new.length = vs.length := by
      have := congrArg List.length hmap
      simpa using this
    have hsz2 : r.self.size_ = vs.length := by simpa [Run.start, ForwardList.empty] using hsz
    have htr : traverse vs.length r.heap { current_ := r.self.head_ } = some new :=
      (traverse_iff _ _ _ _).2 ⟨hs, by omega⟩
    refine ⟨r, hrun, ?_, ?_⟩
    · simp only [ForwardList.toList, ForwardList.Begin, htr, Option.map_some', hmap]
    · match new, hs, hmap, hlen with
      | [], _, _, hlen => simp at hlen; omega
      | [_], _, _, hlen => simp at hlen; omega
      | c1 :: d :: rest2, hs, hmap, hlen =>
        have he : r.self.IsEmpty = false := by
          simp [ForwardList.IsEmpty]
          omega
        obtain ⟨nx, hl, hrest⟩ := PopFront_seg hs
        obtain ⟨hnx, nx2, hl2, _⟩ := hrest
        refine ⟨{ head_ := nx, size_ := r.self.size_ - 1 }, r.heap.set c1.1 none, d.2,
          PopFront_eq he hs.1 hl, ?_, ?_⟩
        · have hvs : vs = (List.map Prod.snd (c1 :: d :: rest2)).reverse := by
            rw [hmap, List.reverse_reverse]
          rw [hvs]
          exact reverse_second _ _ _
        · have he2 : (r.self.size_ - 1 == 0) = false := by
            simp
            omega
          simp [ForwardList.Front, ForwardList.IsEmpty, he2, hnx, hl2]

/-- Witness for C7: push 1, 2, 3 onto a default-constructed list: the traversal
is 3, 2, 1, and after `PopFront()` the front is 2. -/
theorem PopFront_spec_witness :
    traverse 3 [some (Node.mk none (1 : Nat)), some (Node.mk (some 0) 2), some (Node.mk (some 1) 3)]
        (ForwardList.Begin { head_ := some 2, size_ := 3 }) = some ((2, 3) :: [(1, 2), (0, 1)]) ∧
    ForwardList.IsEmpty { head_ := some 2, size_ := 3 } = false ∧
    2 ≤ [1, 2, 3].length ∧
    ((∃ l1 h1, ForwardList.PopFront { head_ := some 2, size_ := 3 }
          [some (Node.mk none (1 : Nat)), some (Node.mk (some 0) 2), some (Node.mk (some 1) 3)] =
            .ok () (l1, h1) ∧
        l1.Size + 1 = ForwardList.Size { head_ := some 2, size_ := 3 } ∧
        h1.load (some 2) = none ∧
        traverse 3 h1 l1.Begin = some [(1, 2), (0, 1)] ∧
        l1.toList h1 3 = some ([(1, 2), (0, 1)].map Prod.snd)) ∧
     (∃ r, Run.exec ([1, 2, 3].map Op.PushFront) (Run.start ([] : Heap Nat)) = some r ∧
        r.self.toList r.heap [1, 2, 3].length = some [1, 2, 3].reverse ∧
        ∃ l2 h2 w, r.self.PopFront r.heap = .ok () (l2, h2) ∧
          [1, 2, 3][[1, 2, 3].length - 2]? = some w ∧ l2.Front h2 = .ok w (l2, h2))) :=
  ⟨by decide, by decide, by decide,
    PopFront_spec { head_ := some 2, size_ := 3 }
      [some (Node.mk none 1), some (Node.mk (some 0) 2), some (Node.mk (some 1) 3)] 3 (2, 3)
      [(1, 2), (0, 1)] [1, 2, 3] [] (by decide) (by decide) (by decide)⟩

/-- C8: the constructor from the literal sequence `values` returns a list with
`Size() == values.length` whose traversal from `Begin()` to `End()` yields
exactly `values`, in order; `Front()` returns the first value when there is
one (and throws on the empty sequence). -/
theorem ofValues_spec {T : Type} (values : List T) (h : Heap T) :
    ∃ l1 h1 cells, ForwardList.ofValues values h = .ok () (l1, h1) ∧
      l1.Size = values.length ∧
      traverse values.length h1 l1.Begin = some cells ∧ cells.map Prod.snd = values ∧
      l1.toList h1 values.length = some values ∧
      l1.Front h1 =
        (match values with
         | [] => .raised (l1, h1)
         | a :: _ => .ok a (l1, h1)) := by
  obtain ⟨l1, h1, new, hrun, hs, hmap, hsz⟩ :=
    ofValuesLoop_seg values values.length (Nat.le_refl _) ForwardList.empty h [] rfl
  rw [List.append_nil] at hs
  rw [List.take_length] at hmap
  have hsz2 : l1.size_ = values.length := by simpa [ForwardList.empty] using hsz
  have hlen : new.length = values.length := by
    have := congrArg List.length hmap
    simpa using this
  have htr : traverse values.length h1 { current_ := l1.head_ } = some new :=
    (traverse_iff _ _ _ _).2 ⟨hs, by omega⟩
  refine ⟨l1, h1, new, hrun, hsz2, htr, hmap, ?_, ?_⟩
  · simp only [ForwardList.toList, ForwardList.Begin, htr, Option.map_some', hmap]
  · match values, new, hs, hmap, hsz2 with
    | [], _, _, _, hsz2 => simp [ForwardList.Front, ForwardList.IsEmpty, hsz2]
    | a :: vs, [], _, hmap, _ => simp at hmap
    | a :: vs, c :: rest, hs, hmap, hsz2 =>
      obtain ⟨hp, nx, hl, _⟩ := hs
      have hc : c.2 = a := by
        simp at hmap
        exact hmap.1
      simp [ForwardList.Front, ForwardList.IsEmpty, hsz2, hp, hl, hc]

/-- C9: on a list whose traversal is `cells`, let `it` reference the node at
index `i`.  `InsertAfter(it, v)` returns; advancing `it` once then gives an
iterator that dereferences to `v`; `Size()` has grown by exactly 1; the head is
the same node; and the traversal is the old one with the new node holding `v`
inserted at index `i + 1`, every other node keeping its value and its place in
the order. -/
theorem InsertAfter_spec {T : Type} (l : ForwardList) (h : Heap T) (fuel : Nat)
    (cells : List (Nat × T)) (i a : Nat) (x v : T)
    (hx : traverse fuel h l.Begin = some cells) (hi : cells[i]? = some (a, x)) :
    ∃ l1 h1, l.InsertAfter { current_ := some a } v h = .ok () (l1, h1) ∧
      l1.Size = l.Size + 1 ∧ l1.head_ = l.head_ ∧
      ((ForwardListIterator.mk (some a)).preInc h1).bind (fun it => it.deref h1) = some v ∧
      traverse (fuel + 1) h1 l1.Begin =
        some (cells.take (i + 1) ++ (h.length, v) :: cells.drop (i + 1)) ∧
      l1.toList h1 (fuel + 1) =
        some ((cells.map Prod.snd).take (i + 1) ++ v :: (cells.map Prod.snd).drop (i + 1)) := by
  obtain ⟨hs, hlen⟩ := (traverse_iff fuel h l.head_ cells).1 hx
  have hsplit := split_at hi
  have htake : cells.take (i + 1) = cells.take i ++ [(a, x)] := by
    rw [List.take_succ, hi]
    rfl
  rw [hsplit] at hs
  obtain ⟨nx, hl, hseg⟩ := InsertAfter_seg v hs
  have ha : a < h.length := load_lt hl
  have hcells : cells.take i ++ (a, x) :: (h.length, v) :: cells.drop (i + 1) =
      cells.take (i + 1) ++ (h.length, v) :: cells.drop (i + 1) := by
    rw [htake]
    simp
  rw [hcells] at hseg
  have hlen2 : (cells.take (i + 1) ++ (h.length, v) :: cells.drop (i + 1)).length ≤ fuel + 1 := by
    have h1 := congrArg List.length hsplit
    have h2 := congrArg List.length htake
    simp only [List.length_append, List.length_cons, List.length_nil] at h1 h2 ⊢
    omega
  have htr : traverse (fuel + 1)
      ((h ++ [some (Node.mk nx v)]).set a (some (Node.mk (some h.length) x)))
      { current_ := l.head_ } = some (cells.take (i + 1) ++ (h.length, v) :: cells.drop (i + 1)) :=
    (traverse_iff _ _ _ _).2 ⟨hseg, hlen2⟩
  have hla : Heap.load ((h ++ [some (Node.mk nx v)]).set a (some (Node.mk (some h.length) x)))
      (some a) = some (Node.mk (some h.length) x) :=
    load_set_same _ _ (by simp; omega)
  have hln : Heap.load ((h ++ [some (Node.mk nx v)]).set a (some (Node.mk (some h.length) x)))
      (some h.length) = some (Node.mk nx v) := by
    rw [load_set_other _ _ (by omega : a ≠ h.length), load_append_new]
  refine ⟨{ head_ := l.head_, size_ := l.size_ + 1 },
    (h ++ [some (Node.mk nx v)]).set a (some (Node.mk (some h.length) x)),
    InsertAfter_eq l v hl, rfl, rfl, ?_, htr, ?_⟩
  · simp [ForwardListIterator.preInc, ForwardListIterator.deref, hla, hln]
  · simp only [ForwardList.toList, ForwardList.Begin, htr, Option.map_some']
    simp [List.map_take, List.map_drop]

/-- Witness for C9: on the list 1, 2, 3, insert 9 after the node holding 2. -/
theorem InsertAfter_spec_witness :
    traverse 3 [some (Node.mk none (3 : Nat)), some (Node.mk (some 0) 2), some (Node.mk (some 1) 1)]
        (ForwardList.Begin { head_ := some 2, size_ := 3 }) = some [(2, 1), (1, 2), (0, 3)] ∧
    [(2, 1), (1, 2), (0, 3)][1]? = some (1, 2) ∧
    ∃ l1 h1, ForwardList.InsertAfter { head_ := some 2, size_ := 3 } { current_ := some 1 } (9 : Nat)
        [some (Node.mk none 3), some (Node.mk (some 0) 2), some (Node.mk (some 1) 1)] =
          .ok () (l1, h1) ∧
      l1.Size = ForwardList.Size { head_ := some 2, size_ := 3 } + 1 ∧
      l1.head_ = some 2 ∧
      ((ForwardListIterator.mk (some 1)).preInc h1).bind (fun it => it.deref h1) = some 9 ∧
      traverse (3 + 1) h1 l1.Begin =
        some ([(2, 1), (1, 2), (0, 3)].take (1 + 1) ++ (3, 9) :: [(2, 1), (1, 2), (0, 3)].drop (1 + 1)) ∧
      l1.toList h1 (3 + 1) =
        some (([(2, 1), (1, 2), (0, 3)].map Prod.snd).take (1 + 1) ++
          9 :: ([(2, 1), (1, 2), (0, 3)].map Prod.snd).drop (1 + 1)) :=
  ⟨by decide, by decide,
    InsertAfter_spec { head_ := some 2, size_ := 3 }
      [some (Node.mk none 3), some (Node.mk (some 0) 2), some (Node.mk (some 1) 1)] 3
      [(2, 1), (1, 2), (0, 3)] 1 1 2 9 (by decide) (by decide)⟩

/-- C10: on a list whose count is not zero and whose traversal is `cells`:
if `it` references the node at index `i` and a node follows it, `EraseAfter(it)`
returns, destroys exactly the node at index `i + 1`, leaves every other node
with its value and place, and lowers `Size()` by exactly 1; if `it` references
the last node, or `it` is `End()`, `EraseAfter(it)` returns and changes neither
the list object nor the heap. -/
theorem EraseAfter_spec {T : Type} (l : ForwardList) (h : Heap T) (fuel : Nat)
    (cells : List (Nat × T)) (hx : traverse fuel h l.Begin = some cells)
    (hne : l.IsEmpty = false) :
    (∀ i a x d y, cells[i]? = some (a, x) → cells[i + 1]? = some (d, y) →
      ∃ l1 h1, l.EraseAfter { current_ := some a } h = .ok () (l1, h1) ∧
        l1.Size + 1 = l.Size ∧ h1.load (some d) = none ∧
        traverse fuel h1 l1.Begin = some (cells.eraseIdx (i + 1)) ∧
        l1.toList h1 fuel = some ((cells.map Prod.snd).eraseIdx (i + 1))) ∧
    (∀ i a x, cells[i]? = some (a, x) → cells[i + 1]? = none →
      l.EraseAfter { current_ := some a } h = .ok () (l, h)) ∧
    l.EraseAfter l.End h = .ok () (l, h) := by
  obtain ⟨hs, hlen⟩ := (traverse_iff fuel h l.head_ cells).1 hx
  have hsz : l.size_ ≠ 0 := by simpa [ForwardList.IsEmpty] using hne
  refine ⟨?_, ?_, by simp [ForwardList.EraseAfter, hne, ForwardList.End]⟩
  · intro i a x d y hi hi2
    have htake : cells.take (i + 1) = cells.take i ++ [(a, x)] := by
      rw [List.take_succ, hi]
      rfl
    have hsplit : cells = cells.take i ++ (a, x) :: (d, y) :: cells.drop (i + 2) := by
      have h2 := split_at hi2
      rw [htake] at h2
      simpa using h2
    have hs2 := hs
    rw [hsplit] at hs2
    obtain ⟨nx, hl, hld, had, hseg⟩ := EraseAfter_seg hs2
    have herase : cells.eraseIdx (i + 1) = cells.take i ++ (a, x) :: cells.drop (i + 2) := by
      rw [List.eraseIdx_eq_take_drop_succ, htake]
      simp
    rw [← herase] at hseg
    have hlen2 : (cells.eraseIdx (i + 1)).length ≤ fuel :=
      Nat.le_trans (List.eraseIdx_sublist cells (i + 1)).length_le hlen
    have htr : traverse fuel ((h.set a (some (Node.mk nx x))).set d none)
        { current_ := l.head_ } = some (cells.eraseIdx (i + 1)) :=
      (traverse_iff _ _ _ _).2 ⟨hseg, hlen2⟩
    refine ⟨{ head_ := l.head_, size_ := l.size_ - 1 },
      (h.set a (some (Node.mk nx x))).set d none, EraseAfter_eq hne hl rfl hld had, ?_, ?_,
      htr, ?_⟩
    · show l.size_ - 1 + 1 = l.size_
      omega
    · exact load_set_same _ _ (by simpa using load_lt hld)
    · simp only [ForwardList.toList, ForwardList.Begin, htr, Option.map_some']
      simp [List.eraseIdx_eq_take_drop_succ, List.map_take, List.map_drop]
  · intro i a x hi hi2
    have hsplit := split_at hi
    have hdrop : cells.drop (i + 1) = [] :=
      List.drop_eq_nil_of_le (List.getElem?_eq_none_iff.1 hi2)
    rw [hdrop] at hsplit
    rw [hsplit] at hs
    obtain ⟨m, _, _, nx, hl, hnil⟩ := (seg_append h _ _ _ _).1 hs
    have hnx : nx = none := hnil
    exact EraseAfter_last hne hl hnx

/-- Witness for C10 on the list 1, 2, 3. -/
theorem EraseAfter_spec_witness :
    traverse 3 [some (Node.mk none (3 : Nat)), some (Node.mk (some 0) 2), some (Node.mk (some 1) 1)]
        (ForwardList.Begin { head_ := some 2, size_ := 3 }) = some [(2, 1), (1, 2), (0, 3)] ∧
    ForwardList.IsEmpty { head_ := some 2, size_ := 3 } = false ∧
    ((∀ i a x d y, [(2, 1), (1, 2), (0, 3)][i]? = some (a, x) →
        [(2, 1), (1, 2), (0, 3)][i + 1]? = some (d, y) →
        ∃ l1 h1, ForwardList.EraseAfter { head_ := some 2, size_ := 3 } { current_ := some a }
            [some (Node.mk none (3 : Nat)), some (Node.mk (some 0) 2), some (Node.mk (some 1) 1)] =
              .ok () (l1, h1) ∧
          l1.Size + 1 = ForwardList.Size { head_ := some 2, size_ := 3 } ∧
          h1.load (some d) = none ∧
          traverse 3 h1 l1.Begin = some ([(2, 1), (1, 2), (0, 3)].eraseIdx (i + 1)) ∧
          l1.toList h1 3 = some (([(2, 1), (1, 2), (0, 3)].map Prod.snd).eraseIdx (i + 1))) ∧
     (∀ i a x, [(2, 1), (1, 2), (0, 3)][i]? = some (a, x) →
        [(2, 1), (1, 2), (0, 3)][i + 1]? = none →
        ForwardList.EraseAfter { head_ := some 2, size_ := 3 } { current_ := some a }
            [some (Node.mk none (3 : Nat)), some (Node.mk (some 0) 2), some (Node.mk (some 1) 1)] =
          .ok () ({ head_ := some 2, size_ := 3 },
            [some (Node.mk none 3), some (Node.mk (some 0) 2), some (Node.mk (some 1) 1)])) ∧
     ForwardList.EraseAfter { head_ := some 2, size_ := 3 }
          (ForwardList.End { head_ := some 2, size_ := 3 })
          [some (Node.mk none (3 : Nat)), some (Node.mk (some 0) 2), some (Node.mk (some 1) 1)] =
        .ok () ({ head_ := some 2, size_ := 3 },
          [some (Node.mk none 3), some (Node.mk (some 0) 2), some (Node.mk (some 1) 1)])) :=
  ⟨by decide, by decide,
    EraseAfter_spec { head_ := some 2, size_ := 3 }
      [some (Node.mk none 3), some (Node.mk (some 0) 2), some (Node.mk (some 1) 1)] 3
      [(2, 1), (1, 2), (0, 3)] (by decide) (by decide)⟩

/-- C11: on a list whose traversal is `cells`, `Find(v)` returns, with the
list object and the heap exactly as they were, an iterator `it` such that
`it == End()` if and only if no element equals `v`, and otherwise `it`
references the node of lowest index whose value equals `v`. -/
theorem Find_spec {T : Type} [DecidableEq T] (l : ForwardList) (h : Heap T) (fuel : Nat)
    (cells : List (Nat × T)) (v : T) (hx : traverse fuel h l.Begin = some cells) :
    ∃ it, l.Find v h fuel = .ok it (l, h) ∧
      (it.eq l.End = true ↔ ∀ c ∈ cells, c.2 ≠ v) ∧
      ((it = l.End ∧ ∀ c ∈ cells, c.2 ≠ v) ∨
       ∃ (i a : Nat), it = { current_ := some a } ∧ cells[i]? = some (a, v) ∧
         ∀ (j : Nat) (c : Nat × T), j < i → cells[j]? = some c → c.2 ≠ v) := by
  obtain ⟨hs, hlen⟩ := (traverse_iff fuel h l.head_ cells).1 hx
  obtain ⟨it, hrun, hres⟩ := FindLoop_seg l v h cells fuel l.head_ hs hlen
  refine ⟨it, hrun, ?_, ?_⟩
  · rcases hres with ⟨hn, hall⟩ | ⟨i, a, hit, hi, _⟩
    · simp only [ForwardListIterator.eq, ForwardList.End, hn, beq_self_eq_true, true_iff]
      exact hall
    · simp only [ForwardListIterator.eq, ForwardList.End, hit]
      constructor
      · intro hc
        simp at hc
      · intro hall
        exact absurd rfl (hall (a, v) (List.getElem?_mem hi))
  · rcases hres with ⟨hn, hall⟩ | ⟨i, a, hit, hi, hfirst⟩
    · left
      refine ⟨?_, hall⟩
      cases it
      simp only [ForwardList.End, ForwardListIterator.mk.injEq]
      exact hn
    · right
      refine ⟨i, a, ?_, hi, hfirst⟩
      cases it
      simp only [ForwardListIterator.mk.injEq]
      exact hit

/-- Witness for C11: looking for 2 in the list 1, 2, 3. -/
theorem Find_spec_witness :
    traverse 3 [some (Node.mk none (3 : Nat)), some (Node.mk (some 0) 2), some (Node.mk (some 1) 1)]
        (ForwardList.Begin { head_ := some 2, size_ := 3 }) = some [(2, 1), (1, 2), (0, 3)] ∧
    ∃ it, ForwardList.Find { head_ := some 2, size_ := 3 } (2 : Nat)
        [some (Node.mk none 3), some (Node.mk (some 0) 2), some (Node.mk (some 1) 1)] 3 =
          .ok it ({ head_ := some 2, size_ := 3 },
            [some (Node.mk none 3), some (Node.mk (some 0) 2), some (Node.mk (some 1) 1)]) ∧
      (it.eq (ForwardList.End { head_ := some 2, size_ := 3 }) = true ↔
        ∀ c ∈ [(2, 1), (1, 2), (0, 3)], c.2 ≠ 2) ∧
      ((it = ForwardList.End { head_ := some 2, size_ := 3 } ∧
          ∀ c ∈ [(2, 1), (1, 2), (0, 3)], c.2 ≠ 2) ∨
       ∃ (i a : Nat), it = { current_ := some a } ∧
         [(2, 1), (1, 2), (0, 3)][i]? = some (a, 2) ∧
         ∀ (j : Nat) (c : Nat × Nat), j < i → [(2, 1), (1, 2), (0, 3)][j]? = some c → c.2 ≠ 2) :=
  ⟨by decide, Find_spec { head_ := some 2, size_ := 3 }
    [some (Node.mk none 3), some (Node.mk (some 0) 2), some (Node.mk (some 1) 1)] 3
    [(2, 1), (1, 2), (0, 3)] 2 (by decide)⟩

/-- C12: copy-constructing from a list whose traversal is `cells` returns a
list with the same `Size()` and a traversal holding equal values in the same
order, made of nodes that did not exist before; the source's nodes, values
and order are as they were. -/
theorem copy_spec {T : Type} (other : ForwardList) (h : Heap T) (fuel : Nat)
    (cells : List (Nat × T)) (hx : traverse fuel h other.Begin = some cells) :
    ∃ l1 h1 copied, ForwardList.copy other h fuel = .ok () (l1, h1) ∧
      l1.Size = other.Size ∧
      traverse fuel h1 l1.Begin = some copied ∧
      copied.map Prod.snd = cells.map Prod.snd ∧
      l1.toList h1 fuel = other.toList h fuel ∧
      (∀ c ∈ copied, h.length ≤ c.1) ∧
      traverse fuel h1 other.Begin = some cells ∧
      other.toList h1 fuel = other.toList h fuel := by
  obtain ⟨hs, hlen⟩ := (traverse_iff fuel h other.head_ cells).1 hx
  obtain ⟨l1, h1, copied, hrun, hsz, hseg, hmap, hsrc, hfresh⟩ := copy_chain hs hlen
  have hlen2 : copied.length ≤ fuel := by
    have := congrArg List.length hmap
    simp only [List.length_map] at this
    omega
  have htr : traverse fuel h1 l1.Begin = some copied := (traverse_iff _ _ _ _).2 ⟨hseg, hlen2⟩
  have htr2 : traverse fuel h1 other.Begin = some cells := (traverse_iff _ _ _ _).2 ⟨hsrc, hlen⟩
  refine ⟨l1, h1, copied, hrun, hsz, htr, hmap, ?_, hfresh, htr2, ?_⟩
  · simp only [ForwardList.toList, htr, hx, Option.map_some', hmap]
  · simp only [ForwardList.toList, htr2, hx]

/-- Witness for C12: copying the list 1, 2, 3. -/
theorem copy_spec_witness :
    traverse 3 [some (Node.mk none (3 : Nat)), some (Node.mk (some 0) 2), some (Node.mk (some 1) 1)]
        (ForwardList.Begin { head_ := some 2, size_ := 3 }) = some [(2, 1), (1, 2), (0, 3)] ∧
    ∃ l1 h1 copied, ForwardList.copy { head_ := some 2, size_ := 3 }
        [some (Node.mk none (3 : Nat)), some (Node.mk (some 0) 2), some (Node.mk (some 1) 1)] 3 =
          .ok () (l1, h1) ∧
      l1.Size = ForwardList.Size { head_ := some 2, size_ := 3 } ∧
      traverse 3 h1 l1.Begin = some copied ∧
      copied.map Prod.snd = [(2, 1), (1, 2), (0, 3)].map Prod.snd ∧
      l1.toList h1 3 = ForwardList.toList { head_ := some 2, size_ := 3 }
        [some (Node.mk none (3 : Nat)), some (Node.mk (some 0) 2), some (Node.mk (some 1) 1)] 3 ∧
      (∀ c ∈ copied, [some (Node.mk none (3 : Nat)), some (Node.mk (some 0) 2),
        some (Node.mk (some 1) 1)].length ≤ c.1) ∧
      traverse 3 h1 (ForwardList.Begin { head_ := some 2, size_ := 3 }) =
        some [(2, 1), (1, 2), (0, 3)] ∧
      ForwardList.toList { head_ := some 2, size_ := 3 } h1 3 =
        ForwardList.toList { head_ := some 2, size_ := 3 }
          [some (Node.mk none (3 : Nat)), some (Node.mk (some 0) 2), some (Node.mk (some 1) 1)] 3 :=
  ⟨by decide, copy_spec { head_ := some 2, size_ := 3 }
    [some (Node.mk none 3), some (Node.mk (some 0) 2), some (Node.mk (some 1) 1)] 3
    [(2, 1), (1, 2), (0, 3)] (by decide)⟩

/-- C13: let `a` be a list whose traversal is `acells`, and let `b` be its
copy, made by copy construction or by assigning `a` to a list `b0` that owns
its own nodes.  No node of `b` is a node of `a`; after any sequence of
`PushFront`, `PopFront`, `InsertAfter`, `EraseAfter` and `Clear` calls on `b`,
at positions the client reaches from `b.Begin()` or `b.End()`, every state the
run reaches has the nodes, values and order of `a` as they were (the object
`a` itself is not an argument of these calls); and a run without `InsertAfter`
always reaches a state when `a` satisfies the count invariant. -/
theorem copy_independent {T : Type} (a b0 : ForwardList) (h : Heap T) (fuel : Nat)
    (acells b0cells : List (Nat × T))
    (ha : traverse fuel h a.Begin = some acells)
    (hb : traverse fuel h b0.Begin = some b0cells) (hbsz : b0.size_ = b0cells.length)
    (hdis : ∀ c ∈ acells, c.1 ∉ b0cells.map Prod.fst) :
    (∃ b h1 bcells, ForwardList.copy a h fuel = .ok () (b, h1) ∧
      traverse fuel h1 b.Begin = some bcells ∧
      (∀ c ∈ bcells, c.1 ∉ acells.map Prod.fst) ∧
      (∀ calls st, Call.exec calls (b, h1) = some st →
        traverse fuel st.2 a.Begin = some acells ∧ a.toList st.2 fuel = a.toList h fuel) ∧
      (a.size_ = acells.length → ∀ calls, calls.all Call.noInsert = true →
        ∃ st, Call.exec calls (b, h1) = some st)) ∧
    (∃ b h1 bcells, b0.assign (.distinct a) h fuel = .ok () (b, h1) ∧
      traverse fuel h1 b.Begin = some bcells ∧
      (∀ c ∈ bcells, c.1 ∉ acells.map Prod.fst) ∧
      (∀ calls st, Call.exec calls (b, h1) = some st →
        traverse fuel st.2 a.Begin = some acells ∧ a.toList st.2 fuel = a.toList h fuel) ∧
      (a.size_ = acells.length → ∀ calls, calls.all Call.noInsert = true →
        ∃ st, Call.exec calls (b, h1) = some st)) := by
  obtain ⟨hsa, hlena⟩ := (traverse_iff fuel h a.head_ acells).1 ha
  obtain ⟨hsb, _⟩ := (traverse_iff fuel h b0.head_ b0cells).1 hb
  have finish : ∀ (b : ForwardList) (h1 : Heap T) (copied : List (Nat × T)),
      b.size_ = a.size_ → Seg h1 b.head_ copied none →
      copied.map Prod.snd = acells.map Prod.snd → Seg h1 a.head_ acells none →
      (∀ c ∈ copied, h.length ≤ c.1) →
      traverse fuel h1 b.Begin = some copied ∧
      (∀ c ∈ copied, c.1 ∉ acells.map Prod.fst) ∧
      (∀ calls st, Call.exec calls (b, h1) = some st →
        traverse fuel st.2 a.Begin = some acells ∧ a.toList st.2 fuel = a.toList h fuel) ∧
      (a.size_ = acells.length → ∀ calls, calls.all Call.noInsert = true →
        ∃ st, Call.exec calls (b, h1) = some st) := by
    intro b h1 copied hsz hseg hmap hsrc hfresh
    obtain ⟨hd1, hd2⟩ := fresh_disjoint hsa hfresh
    have hlen2 : copied.length = acells.length := by
      have := congrArg List.length hmap
      simpa using this
    refine ⟨(traverse_iff _ _ _ _).2 ⟨hseg, by omega⟩, hd1, ?_, ?_⟩
    · intro calls st hrun
      have htr := exec_frame hseg hsrc hlena hd2 calls st hrun
      refine ⟨htr, ?_⟩
      have htr2 : traverse fuel st.2 a.Begin = some acells := htr
      simp only [ForwardList.toList, htr2, ha]
    · intro hasz calls hc
      exact exec_total calls hseg (by omega) hc
  constructor
  · obtain ⟨b, h1, copied, hrun, hsz, hseg, hmap, hsrc, hfresh⟩ := copy_chain hsa hlena
    exact ⟨b, h1, copied, hrun, finish b h1 copied hsz hseg hmap hsrc hfresh⟩
  · obtain ⟨b, h1, copied, hrun, hsz, hseg, hmap, hsrc, hfresh⟩ :=
      assign_chain hsb hbsz hsa hlena hdis
    exact ⟨b, h1, copied, hrun, finish b h1 copied hsz hseg hmap hsrc hfresh⟩

/-- Witness for C13: `a` is the list 1, 2, 3 and `b0` is a default-constructed
list. -/
theorem copy_independent_witness :
    traverse 3 [some (Node.mk none (3 : Nat)), some (Node.mk (some 0) 2), some (Node.mk (some 1) 1)]
        (ForwardList.Begin { head_ := some 2, size_ := 3 }) = some [(2, 1), (1, 2), (0, 3)] ∧
    traverse 3 [some (Node.mk none (3 : Nat)), some (Node.mk (some 0) 2), some (Node.mk (some 1) 1)]
        (ForwardList.Begin ForwardList.empty) = some [] ∧
    ForwardList.empty.size_ = ([] : List (Nat × Nat)).length ∧
    (∀ c ∈ [(2, 1), (1, 2), (0, 3)], c.1 ∉ ([] : List (Nat × Nat)).map Prod.fst) ∧
    ((∃ b h1 bcells, ForwardList.copy { head_ := some 2, size_ := 3 }
        [some (Node.mk none (3 : Nat)), some (Node.mk (some 0) 2), some (Node.mk (some 1) 1)] 3 =
          .ok () (b, h1) ∧
      traverse 3 h1 b.Begin = some bcells ∧
      (∀ c ∈ bcells, c.1 ∉ [(2, 1), (1, 2), (0, 3)].map Prod.fst) ∧
      (∀ calls st, Call.exec calls (b, h1) = some st →
        traverse 3 st.2 (ForwardList.Begin { head_ := some 2, size_ := 3 }) =
          some [(2, 1), (1, 2), (0, 3)] ∧
        ForwardList.toList { head_ := some 2, size_ := 3 } st.2 3 =
          ForwardList.toList { head_ := some 2, size_ := 3 }
            [some (Node.mk none (3 : Nat)), some (Node.mk (some 0) 2),
              some (Node.mk (some 1) 1)] 3) ∧
      (ForwardList.size_ { head_ := some 2, size_ := 3 } = [(2, 1), (1, 2), (0, 3)].length →
        ∀ calls, calls.all Call.noInsert = true → ∃ st, Call.exec calls (b, h1) = some st)) ∧
     (∃ b h1 bcells, ForwardList.assign ForwardList.empty
        (.distinct { head_ := some 2, size_ := 3 })
        [some (Node.mk none (3 : Nat)), some (Node.mk (some 0) 2), some (Node.mk (some 1) 1)] 3 =
          .ok () (b, h1) ∧
      traverse 3 h1 b.Begin = some bcells ∧
      (∀ c ∈ bcells, c.1 ∉ [(2, 1), (1, 2), (0, 3)].map Prod.fst) ∧
      (∀ calls st, Call.exec calls (b, h1) = some st →
        traverse 3 st.2 (ForwardList.Begin { head_ := some 2, size_ := 3 }) =
          some [(2, 1), (1, 2), (0, 3)] ∧
        ForwardList.toList { head_ := some 2, size_ := 3 } st.2 3 =
          ForwardList.toList { head_ := some 2, size_ := 3 }
            [some (Node.mk none (3 : Nat)), some (Node.mk (some 0) 2),
              some (Node.mk (some 1) 1)] 3) ∧
      (ForwardList.size_ { head_ := some 2, size_ := 3 } = [(2, 1), (1, 2), (0, 3)].length →
        ∀ calls, calls.all Call.noInsert = true → ∃ st, Call.exec calls (b, h1) = some st))) :=
  ⟨by decide, by decide, by decide, by decide,
    copy_independent { head_ := some 2, size_ := 3 } ForwardList.empty
      [some (Node.mk none 3), some (Node.mk (some 0) 2), some (Node.mk (some 1) 1)] 3
      [(2, 1), (1, 2), (0, 3)] [] (by decide) (by decide) (by decide) (by decide)⟩

/-- Assignment onto a target that satisfies the count invariant: let `a` have
traversal `acells` with `size_` equal to its length, and let `b` be another
list object, with traversal `bcells`, that shares no node with `a`.  After
`a = b` the list `a` has `b`'s `Size()` and a traversal with `b`'s values in
`b`'s order, and the nodes, values and order of `b` are as they were.  The
self-assignment `a = a` returns with the list object and the heap exactly as
they were. -/
theorem assign_spec {T : Type} (a b : ForwardList) (h : Heap T) (fuel : Nat)
    (acells bcells : List (Nat × T))
    (ha : traverse fuel h a.Begin = some acells) (hasz : a.size_ = acells.length)
    (hb : traverse fuel h b.Begin = some bcells)
    (hdis : ∀ c ∈ bcells, c.1 ∉ acells.map Prod.fst) :
    (∃ a1 h1 copied, a.assign (.distinct b) h fuel = .ok () (a1, h1) ∧
      a1.Size = b.Size ∧
      traverse fuel h1 a1.Begin = some copied ∧
      copied.map Prod.snd = bcells.map Prod.snd ∧
      a1.toList h1 fuel = b.toList h fuel ∧
      traverse fuel h1 b.Begin = some bcells) ∧
    a.assign .this h fuel = .ok () (a, h) := by
  obtain ⟨hsa, _⟩ := (traverse_iff fuel h a.head_ acells).1 ha
  obtain ⟨hsb, hlenb⟩ := (traverse_iff fuel h b.head_ bcells).1 hb
  obtain ⟨a1, h1, copied, hrun, hsz, hseg, hmap, hsrc, _⟩ :=
    assign_chain hsa hasz hsb hlenb hdis
  have hlen2 : copied.length ≤ fuel := by
    have := congrArg List.length hmap
    simp only [List.length_map] at this
    omega
  have htr : traverse fuel h1 a1.Begin = some copied := (traverse_iff _ _ _ _).2 ⟨hseg, hlen2⟩
  refine ⟨⟨a1, h1, copied, hrun, hsz, htr, hmap, ?_, (traverse_iff _ _ _ _).2 ⟨hsrc, hlenb⟩⟩, rfl⟩
  simp only [ForwardList.toList, htr, hb, Option.map_some', hmap]

/-- Example of `assign_spec`: assigning the list 1, 2, 3 to the list holding 7. -/
theorem assign_spec_witness :
    traverse 3 [some (Node.mk none (3 : Nat)), some (Node.mk (some 0) 2),
        some (Node.mk (some 1) 1), some (Node.mk none 7)]
        (ForwardList.Begin { head_ := some 3, size_ := 1 }) = some [(3, 7)] ∧
    ForwardList.size_ { head_ := some 3, size_ := 1 } = [(3, 7)].length ∧
    traverse 3 [some (Node.mk none (3 : Nat)), some (Node.mk (some 0) 2),
        some (Node.mk (some 1) 1), some (Node.mk none 7)]
        (ForwardList.Begin { head_ := some 2, size_ := 3 }) = some [(2, 1), (1, 2), (0, 3)] ∧
    (∀ c ∈ [(2, 1), (1, 2), (0, 3)], c.1 ∉ [(3, 7)].map Prod.fst) ∧
    ((∃ a1 h1 copied, ForwardList.assign { head_ := some 3, size_ := 1 }
        (.distinct { head_ := some 2, size_ := 3 })
        [some (Node.mk none (3 : Nat)), some (Node.mk (some 0) 2),
          some (Node.mk (some 1) 1), some (Node.mk none 7)] 3 = .ok () (a1, h1) ∧
      a1.Size = ForwardList.Size { head_ := some 2, size_ := 3 } ∧
      traverse 3 h1 a1.Begin = some copied ∧
      copied.map Prod.snd = [(2, 1), (1, 2), (0, 3)].map Prod.snd ∧
      a1.toList h1 3 = ForwardList.toList { head_ := some 2, size_ := 3 }
        [some (Node.mk none (3 : Nat)), some (Node.mk (some 0) 2),
          some (Node.mk (some 1) 1), some (Node.mk none 7)] 3 ∧
      traverse 3 h1 (ForwardList.Begin { head_ := some 2, size_ := 3 }) =
        some [(2, 1), (1, 2), (0, 3)]) ∧
     ForwardList.assign { head_ := some 3, size_ := 1 } .this
        [some (Node.mk none (3 : Nat)), some (Node.mk (some 0) 2),
          some (Node.mk (some 1) 1), some (Node.mk none 7)] 3 =
      .ok () ({ head_ := some 3, size_ := 1 },
        [some (Node.mk none (3 : Nat)), some (Node.mk (some 0) 2),
          some (Node.mk (some 1) 1), some (Node.mk none 7)])) :=
  ⟨by decide, by decide, by decide, by decide,
    assign_spec { head_ := some 3, size_ := 1 } { head_ := some 2, size_ := 3 }
      [some (Node.mk none 3), some (Node.mk (some 0) 2), some (Node.mk (some 1) 1),
        some (Node.mk none 7)] 3 [(3, 7)] [(2, 1), (1, 2), (0, 3)]
      (by decide) (by decide) (by decide) (by decide)⟩

/-- C14 (defect in `InsertAfter`, met in `operator=`): let `a` be the list
reached by `PushFront(1)` then `InsertAfter(End(), 2)` from a default-constructed
list, and let `b` be the list constructed from the literal sequence 7.  The
assignment `a = b` does not complete: the `Clear()` it starts with leaves
`head_` absent with `size_ == 1` after its first `PopFront`, and the second
`PopFront` dereferences the absent head, so `a` never receives `b`'s
elements. -/
theorem assign_fails_after_InsertAfter_End :
    ForwardList.empty.PushFront (1 : Nat) [] =
      .ok () ({ head_ := some 0, size_ := 1 }, [some (Node.mk none 1)]) ∧
    ForwardList.InsertAfter { head_ := some 0, size_ := 1 }
        (ForwardList.End { head_ := some 0, size_ := 1 }) (2 : Nat) [some (Node.mk none 1)] =
      .ok () ({ head_ := some 1, size_ := 2 }, [some (Node.mk none 1), some (Node.mk none 2)]) ∧
    ForwardList.ofValues [(7 : Nat)] [some (Node.mk none 1), some (Node.mk none 2)] =
      .ok () ({ head_ := some 2, size_ := 1 },
        [some (Node.mk none 1), some (Node.mk none 2), some (Node.mk none 7)]) ∧
    ForwardList.toList { head_ := some 2, size_ := 1 }
        [some (Node.mk none (1 : Nat)), some (Node.mk none 2), some (Node.mk none 7)] 1 =
      some [7] ∧
    ForwardList.Clear { head_ := some 1, size_ := 2 }
        [some (Node.mk none (1 : Nat)), some (Node.mk none 2), some (Node.mk none 7)] =
      .undefined ∧
    (∀ fuel, ForwardList.assign { head_ := some 1, size_ := 2 }
        (.distinct { head_ := some 2, size_ := 1 })
        [some (Node.mk none (1 : Nat)), some (Node.mk none 2), some (Node.mk none 7)] fuel =
      .undefined) :=
  ⟨rfl, rfl, rfl, rfl, rfl, fun _ => rfl⟩

/-- C15: `a.Swap(b)` leaves `a` with exactly `b`'s former head and `Size()`
and `b` with `a`'s; it takes and returns no heap, so over any heap the
traversal of the new `a` is the former traversal of `b` and conversely, node
for node; a second `Swap` restores both lists; `std::swap(a, b)` is
`a.Swap(b)`. -/
theorem Swap_spec {T : Type} (a b : ForwardList) (h : Heap T) (fuel : Nat) :
    (a.Swap b).1.head_ = b.head_ ∧ (a.Swap b).1.Size = b.Size ∧
    (a.Swap b).2.head_ = a.head_ ∧ (a.Swap b).2.Size = a.Size ∧
    traverse fuel h (a.Swap b).1.Begin = traverse fuel h b.Begin ∧
    traverse fuel h (a.Swap b).2.Begin = traverse fuel h a.Begin ∧
    (a.Swap b).1.Swap (a.Swap b).2 = (a, b) ∧
    swap a b = a.Swap b :=
  ⟨rfl, rfl, rfl, rfl, rfl, rfl, rfl, rfl⟩

/-- C16 (defect in `InsertAfter`): on a default-constructed list, `PushFront(1)`,
`InsertAfter(End(), 2)` and `PopFront()` all return and leave `head_` absent
with `size_ == 1`: `Begin() == End()` holds while `IsEmpty()` is false. -/
theorem Begin_is_End_on_counted_list :
    ForwardList.empty.PushFront (1 : Nat) [] =
      .ok () ({ head_ := some 0, size_ := 1 }, [some (Node.mk none 1)]) ∧
    ForwardList.InsertAfter { head_ := some 0, size_ := 1 }
        (ForwardList.End { head_ := some 0, size_ := 1 }) (2 : Nat) [some (Node.mk none 1)] =
      .ok () ({ head_ := some 1, size_ := 2 }, [some (Node.mk none 1), some (Node.mk none 2)]) ∧
    ForwardList.PopFront { head_ := some 1, size_ := 2 }
        [some (Node.mk none (1 : Nat)), some (Node.mk none 2)] =
      .ok () ({ head_ := none, size_ := 1 }, [some (Node.mk none 1), none]) ∧
    (ForwardList.Begin { head_ := none, size_ := 1 }).eq
        (ForwardList.End { head_ := none, size_ := 1 }) = true ∧
    ForwardList.IsEmpty { head_ := none, size_ := 1 } = false ∧
    ForwardList.Front { head_ := none, size_ := 1 } [some (Node.mk none (1 : Nat)), none] =
      .undefined :=
  ⟨rfl, rfl, rfl, rfl, rfl, rfl⟩

/-- C17: for every `n`, the sized constructor returns a list with
`Size() == n` whose traversal has exactly `n` elements, each equal to the
value `T()`; for `n == 0` it returns the empty list, head
absent, over the untouched heap. -/
theorem sized_spec {T : Type} (n : Nat) (dflt : T) (h : Heap T) :
    (∃ l1 h1 cells, ForwardList.sized n dflt h = .ok () (l1, h1) ∧
      l1.Size = n ∧
      traverse n h1 l1.Begin = some cells ∧ cells.length = n ∧ (∀ c ∈ cells, c.2 = dflt) ∧
      l1.toList h1 n = some (List.replicate n dflt)) ∧
    ForwardList.sized 0 dflt h = .ok () (ForwardList.empty, h) := by
  refine ⟨?_, rfl⟩
  obtain ⟨l1, h1, new, hrun, hs, hmap, hsz⟩ := sizedLoop_seg dflt n ForwardList.empty h [] rfl
  rw [List.append_nil] at hs
  have hlen : new.length = n := by
    have := congrArg List.length hmap
    simpa using this
  have htr : traverse n h1 l1.Begin = some new := (traverse_iff _ _ _ _).2 ⟨hs, by omega⟩
  refine ⟨l1, h1, new, hrun, by simpa [ForwardList.empty] using hsz, htr, hlen, ?_, ?_⟩
  · intro c hc
    have hmem : c.2 ∈ new.map Prod.snd := List.mem_map_of_mem Prod.snd hc
    rw [hmap] at hmem
    exact List.eq_of_mem_replicate hmem
  · simp only [ForwardList.toList, htr, Option.map_some', hmap]

/-- C18: for an iterator that references a live node `n`, post-increment
returns the iterator as it was before the call and leaves it at
`n.next_`, the position pre-increment produces (the successor, or the end
sentinel when `n` is last); `==` holds exactly when both iterators are the end
sentinel or both reference the same node, and `!=` is its negation. -/
theorem postInc_spec {T : Type} (it : ForwardListIterator) (h : Heap T) (n : Node T)
    (hl : h.load it.current_ = some n) :
    it.postInc h = some (it, { current_ := n.next_ }) ∧
    it.preInc h = some { current_ := n.next_ } ∧
    (it.postInc h).map Prod.snd = it.preInc h ∧
    (it.postInc h).map (fun r => r.1.eq it) = some true ∧
    (∀ a b : ForwardListIterator,
      (a.eq b = true ↔
        (a.current_ = none ∧ b.current_ = none) ∨
          ∃ k, a.current_ = some k ∧ b.current_ = some k) ∧
      a.ne b = !a.eq b) := by
  refine ⟨by simp [ForwardListIterator.postInc, ForwardListIterator.preInc, hl],
    by simp [ForwardListIterator.preInc, hl],
    by simp [ForwardListIterator.postInc, ForwardListIterator.preInc, hl],
    by simp [ForwardListIterator.postInc, ForwardListIterator.preInc, hl,
      ForwardListIterator.eq], ?_⟩
  intro a b
  refine ⟨?_, by simp [ForwardListIterator.ne, ForwardListIterator.eq, bne]⟩
  rcases a with ⟨_ | x⟩ <;> rcases b with ⟨_ | y⟩ <;> simp [ForwardListIterator.eq]
  exact eq_comm

/-- Witness for C18: the iterator at the middle node of the list 1, 2, 3. -/
theorem postInc_spec_witness :
    Heap.load [some (Node.mk none (3 : Nat)), some (Node.mk (some 0) 2), some (Node.mk (some 1) 1)]
        (ForwardListIterator.mk (some 1)).current_ = some (Node.mk (some 0) 2) ∧
    ((ForwardListIterator.mk (some 1)).postInc
        [some (Node.mk none (3 : Nat)), some (Node.mk (some 0) 2), some (Node.mk (some 1) 1)] =
      some (ForwardListIterator.mk (some 1), { current_ := (Node.mk (some 0) 2).next_ }) ∧
    (ForwardListIterator.mk (some 1)).preInc
        [some (Node.mk none (3 : Nat)), some (Node.mk (some 0) 2), some (Node.mk (some 1) 1)] =
      some { current_ := (Node.mk (some 0) 2).next_ } ∧
    ((ForwardListIterator.mk (some 1)).postInc
        [some (Node.mk none (3 : Nat)), some (Node.mk (some 0) 2),
          some (Node.mk (some 1) 1)]).map Prod.snd =
      (ForwardListIterator.mk (some 1)).preInc
        [some (Node.mk none (3 : Nat)), some (Node.mk (some 0) 2), some (Node.mk (some 1) 1)] ∧
    ((ForwardListIterator.mk (some 1)).postInc
        [some (Node.mk none (3 : Nat)), some (Node.mk (some 0) 2),
          some (Node.mk (some 1) 1)]).map
        (fun r => r.1.eq (ForwardListIterator.mk (some 1))) = some true ∧
    (∀ a b : ForwardListIterator,
      (a.eq b = true ↔
        (a.current_ = none ∧ b.current_ = none) ∨
          ∃ k, a.current_ = some k ∧ b.current_ = some k) ∧
      a.ne b = !a.eq b)) :=
  ⟨by decide, postInc_spec (ForwardListIterator.mk (some 1))
    [some (Node.mk none 3), some (Node.mk (some 0) 2), some (Node.mk (some 1) 1)]
    (Node.mk (some 0) 2) (by decide)⟩

/-- C20: on a list whose traversal starts with the node `c` and whose count is
at least the number of its nodes (as the count invariant gives), run any
sequence of `EraseAfter` calls, each at `End()` or at a position reached from
`Begin()`.  Every call returns; afterwards the head is the same node `c`,
`Front()` returns the same value as before, `Size() >= 1` and `IsEmpty()` is
false.  A single call is the sequence of length one. -/
theorem EraseAfter_keeps_head {T : Type} (l : ForwardList) (h : Heap T) (fuel : Nat)
    (c : Nat × T) (rest : List (Nat × T)) (ps : List Pos)
    (hx : traverse fuel h l.Begin = some (c :: rest))
    (hsz : (c :: rest).length ≤ l.size_) :
    ∃ l1 h1 rest1, Call.exec (ps.map Call.EraseAfter) (l, h) = some (l1, h1) ∧
      l1.head_ = l.head_ ∧ l1.head_ = some c.1 ∧
      traverse fuel h1 l1.Begin = some (c :: rest1) ∧
      l.Front h = .ok c.2 (l, h) ∧ l1.Front h1 = .ok c.2 (l1, h1) ∧
      1 ≤ l1.Size ∧ l1.IsEmpty = false := by
  obtain ⟨hs, hlen⟩ := (traverse_iff fuel h l.head_ (c :: rest)).1 hx
  obtain ⟨l1, h1, rest1, hrun, hhead, hseg, hsz1, hlen1⟩ := erase_exec ps hs hsz
  have hne : l.IsEmpty = false := by
    simp only [List.length_cons] at hsz
    simp [ForwardList.IsEmpty]
    omega
  have hpos : 1 ≤ l1.size_ := by
    simp only [List.length_cons] at hsz1
    omega
  have hne1 : l1.IsEmpty = false := by
    simp [ForwardList.IsEmpty]
    omega
  refine ⟨l1, h1, rest1, hrun, hhead, hseg.1, ?_, Front_of_chain hs hne,
    Front_of_chain hseg hne1, hpos, hne1⟩
  refine (traverse_iff _ _ _ _).2 ⟨hseg, ?_⟩
  simp only [List.length_cons] at hlen ⊢
  omega

/-- Witness for C20: four `EraseAfter` calls on the list 1, 2, 3. -/
theorem EraseAfter_keeps_head_witness :
    traverse 3 [some (Node.mk none (3 : Nat)), some (Node.mk (some 0) 2), some (Node.mk (some 1) 1)]
        (ForwardList.Begin { head_ := some 2, size_ := 3 }) = some ((2, 1) :: [(1, 2), (0, 3)]) ∧
    ((2, 1) :: [(1, 2), (0, 3)]).length ≤ ForwardList.size_ { head_ := some 2, size_ := 3 } ∧
    ∃ l1 h1 rest1,
      Call.exec ([Pos.FromBegin 0, Pos.End, Pos.FromBegin 5, Pos.FromBegin 0].map Call.EraseAfter)
        (({ head_ := some 2, size_ := 3 } : ForwardList),
          [some (Node.mk none (3 : Nat)), some (Node.mk (some 0) 2), some (Node.mk (some 1) 1)]) =
        some (l1, h1) ∧
      l1.head_ = ForwardList.head_ { head_ := some 2, size_ := 3 } ∧ l1.head_ = some 2 ∧
      traverse 3 h1 l1.Begin = some ((2, 1) :: rest1) ∧
      ForwardList.Front { head_ := some 2, size_ := 3 }
        [some (Node.mk none (3 : Nat)), some (Node.mk (some 0) 2), some (Node.mk (some 1) 1)] =
        .ok 1 ({ head_ := some 2, size_ := 3 },
          [some (Node.mk none (3 : Nat)), some (Node.mk (some 0) 2), some (Node.mk (some 1) 1)]) ∧
      l1.Front h1 = .ok 1 (l1, h1) ∧
      1 ≤ l1.Size ∧ l1.IsEmpty = false :=
  ⟨by decide, by decide,
    EraseAfter_keeps_head { head_ := some 2, size_ := 3 }
      [some (Node.mk none 3), some (Node.mk (some 0) 2), some (Node.mk (some 1) 1)] 3 (2, 1)
      [(1, 2), (0, 3)] [Pos.FromBegin 0, Pos.End, Pos.FromBegin 5, Pos.FromBegin 0]
      (by decide) (by decide)⟩

end FwdList
